import Mathlib

/-!
Shallow embedding of the LLM-compiler engine
(`src/llm_compiler/planner.py`, `src/llm_compiler/scheduler.py` and the
flat demo variant `llm_compiler.py`) together with proofs checking the
natural-language specification against it.

Strings are handled as `List Char` with wrappers from `String`; the
Python string primitives used by the source (`str.strip`, `str.split`,
`str.find`, `str.rfind`, slicing, `re.match`/`re.search` for the concrete
patterns appearing in the source) are embedded one by one below.
-/

set_option maxRecDepth 20000

namespace LC

/-- Single-quote character (ASCII 39), kept as a named constant. -/
def squote : Char := Char.ofNat 39

/-- Single-quote string. -/
def squoteStr : String := ⟨[squote]⟩

/-- Python `str.strip()` whitespace set: space, tab, newline, carriage
return, vertical tab, form feed. -/
def isPySpace (c : Char) : Bool :=
  c = ' ' || c = '\t' || c = '\n' || c = '\r' || c = Char.ofNat 11 || c = Char.ofNat 12

/-- Characters stripped by Python `str.strip("\x22\x27")`: double and single quote. -/
def isQuote (c : Char) : Bool :=
  c = '"' || c = squote

/-- Python `str.strip(pred)`: drop matching characters from both ends. -/
def pyStrip (p : Char → Bool) (l : List Char) : List Char :=
  ((l.dropWhile p).reverse.dropWhile p).reverse

/-- Python `str.split(sep)` for a one-character separator: always returns
at least one (possibly empty) part. -/
def pySplit (c : Char) : List Char → List (List Char)
  | [] => [[]]
  | x :: xs =>
    match pySplit c xs with
    | [] => [[]]
    | h :: t => if x = c then [] :: h :: t else (x :: h) :: t

/-- Python `str.split(sep, 1)` for a one-character separator: `none` when
the separator does not occur (Python would return a one-element list). -/
def splitFirst (c : Char) : List Char → Option (List Char × List Char)
  | [] => none
  | x :: xs =>
    if x = c then some ([], xs)
    else
      match splitFirst c xs with
      | none => none
      | some (a, b) => some (x :: a, b)

/-- Python `str.find(c)` for a character known to occur: index of first
occurrence. -/
def pyFindIdx (c : Char) (l : List Char) : Nat :=
  (l.takeWhile (fun x => x ≠ c)).length

/-- Python `str.rfind(c)` for a character known to occur: index of last
occurrence. -/
def pyRFindIdx (c : Char) (l : List Char) : Nat :=
  l.length - 1 - pyFindIdx c l.reverse

/-- Python slice `l[a:b]` (clamping, empty when `b ≤ a`). -/
def pySlice (l : List Char) (a b : Nat) : List Char :=
  (l.take b).drop a

/-- Python `int(...)` on a string of decimal digits. -/
def digitsToNat (l : List Char) : Nat :=
  l.foldl (fun a c => a * 10 + (c.toNat - 48)) 0

/-- Fuelled digit production (structural recursion so that concrete
renderings evaluate inside the kernel). -/
def natDigitsAux : Nat → Nat → List Char
  | 0, n => [Char.ofNat (48 + n % 10)]
  | fuel + 1, n =>
    if n < 10 then [Char.ofNat (48 + n)]
    else natDigitsAux fuel (n / 10) ++ [Char.ofNat (48 + n % 10)]

/-- Decimal digits of a natural number (for rendering `$N` placeholders
and task indices). -/
def natDigits (n : Nat) : List Char :=
  natDigitsAux n n

/-- Python `re.search(r"\$(\d+)", value)`: the first integer following a
dollar sign anywhere in the value. -/
def firstDollarNum : List Char → Option Nat
  | [] => none
  | c :: rest =>
    if c = '$' then
      let ds := rest.takeWhile Char.isDigit
      if ds.isEmpty then firstDollarNum rest else some (digitsToNat ds)
    else firstDollarNum rest

/-- Python dict assignment `d[k] = v`: update in place when the key
exists, append otherwise. -/
def dictUpd : List (String × String) → String → String → List (String × String)
  | [], k, v => [(k, v)]
  | (k0, v0) :: rest, k, v =>
    if k0 = k then (k0, v) :: rest else (k0, v0) :: dictUpd rest k v

/-- The literal `(deps:` that opens the explicit dependency clause. -/
def depsLit : List Char := ['(', 'd', 'e', 'p', 's', ':']

/-- One attempted match of `\(deps:\s*\[([^\]]+)\]\)` at the head of `l`,
returning the captured bracket contents. -/
def matchDepsAt (l : List Char) : Option (List Char) :=
  if depsLit.isPrefixOf l then
    match (l.drop 6).dropWhile isPySpace with
    | '[' :: r2 =>
      let inner := r2.takeWhile (fun c => c ≠ ']')
      if inner.isEmpty then none
      else
        match r2.drop inner.length with
        | ']' :: ')' :: _ => some inner
        | _ => none
    | _ => none
  else none

/-- Python `re.search(r"\(deps:\s*\[([^\]]+)\]\)", line)`: leftmost match. -/
def findDeps : List Char → Option (List Char)
  | [] => none
  | x :: xs =>
    match matchDepsAt (x :: xs) with
    | some r => some r
    | none => findDeps xs

/-- Source: `planner.py` lines 152-158 — parse the explicit deps clause of
a line: split the captured text on commas, strip, keep digit-only items. -/
def clauseDeps (line : List Char) : List Nat :=
  match findDeps line with
  | none => []
  | some inner =>
    (pySplit ',' inner).foldl
      (fun acc d =>
        let d2 := pyStrip isPySpace d
        if !d2.isEmpty && d2.all Char.isDigit then acc ++ [digitsToNat d2] else acc)
      []

/-- Source: `planner.py` / `llm_compiler.py` — `Task` record (pydantic
model with `idx`, `tool`, `args`, `dependencies`). -/
structure Task where
  idx : Nat
  tool : String
  args : List (String × String)
  dependencies : List Nat
deriving DecidableEq, Repr

namespace Planner

/-- Source: `planner.py` lines 110-122 — per-line prefix handling shared
with the flat parser: strip the line, require the `^\d+\.` prefix, split
at the first dot; returns the parsed index, the text after the dot and
the stripped line. -/
def parseStage1 (line0 : List Char) : Option (Nat × List Char × List Char) :=
  let line := pyStrip isPySpace line0
  let ds := line.takeWhile Char.isDigit
  if ds.isEmpty then none
  else if (line.drop ds.length).head? = some '.' then
    match splitFirst '.' line with
    | none => none
    | some (p0, p1) => some (digitsToNat p0, p1, line)
  else none

/-- Source: `planner.py` lines 133-142 — accumulate `key=value` arguments
from the comma-split argument text into a dict. -/
def parseArgs (argsStr : List Char) : List (String × String) :=
  (pySplit ',' argsStr).foldl
    (fun d arg =>
      match splitFirst '=' arg with
      | none => d
      | some (k, v) =>
        dictUpd d ⟨pyStrip isPySpace k⟩ ⟨pyStrip isQuote (pyStrip isPySpace v)⟩)
    []

/-- Source: `planner.py` lines 144-150 — dependencies contributed by
argument values: only values that start with `$`, first `\$(\d+)` match. -/
def argDollarDeps (args : List (String × String)) : List Nat :=
  args.filterMap
    (fun kv => if kv.2.data.head? = some '$' then firstDollarNum kv.2.data else none)

/-- Source: `planner.py` lines 124-166 — the rest of parsing one line once
its index passed the seen-check: require parentheses, take the tool name
before the first `(`, the argument text between the first `(` and the
last `)`, build args, then dependencies from args followed by the
explicit clause. -/
def parseRest (idx : Nat) (p1 : List Char) (line : List Char) : Option Task :=
  let content := pyStrip isPySpace p1
  if content.contains '(' && content.contains ')' then
    let toolName : String := ⟨pyStrip isPySpace (content.takeWhile (fun c => c ≠ '('))⟩
    let argsStr := pySlice content (pyFindIdx '(' content + 1) (pyRFindIdx ')' content)
    let args := if argsStr.isEmpty then [] else parseArgs argsStr
    some ⟨idx, toolName, args, argDollarDeps args ++ clauseDeps line⟩
  else none

/-- Source: `planner.py` lines 104-168 — fold over the lines with the
mutable `seen_indices` set; an index is marked seen right after it is
read, before the rest of the line is validated. -/
def parseGo : List (List Char) → List Nat → List Task
  | [], _ => []
  | l :: ls, seen =>
    match parseStage1 l with
    | none => parseGo ls seen
    | some (idx, p1, sline) =>
      if idx ∈ seen then parseGo ls seen
      else
        match parseRest idx p1 sline with
        | none => parseGo ls (idx :: seen)
        | some t => t :: parseGo ls (idx :: seen)

/-- Source: `Planner._parse_tasks` — split the buffer on newlines and
parse each line. -/
def parseTasks (content : String) : List Task :=
  parseGo (pySplit '\n' content.data) []

/-- Source: `Planner.stream` lines 76-88 — the inner loop over freshly
parsed tasks: yield (append) each task whose `idx` is not in
`seen_tasks`, adding its `idx` to the set. -/
def emitNew (ts : List Task) (p : List Nat × List Task) : List Nat × List Task :=
  ts.foldl
    (fun (p : List Nat × List Task) t =>
      if t.idx ∈ p.1 then p else (t.idx :: p.1, p.2 ++ [t]))
    p

/-- Source: `Planner.stream` lines 68-88 — consume chunks, append each
nonempty chunk content to the buffer, parse the whole buffer and yield
every task whose `idx` was not yielded before. -/
def streamGo : List String → List Char → List Nat → List Task → List Task
  | [], _, _, out => out
  | c :: cs, buffer, seen, out =>
    if c.data.isEmpty then streamGo cs buffer seen out
    else
      let buffer2 := buffer ++ c.data
      let p := emitNew (parseGo (pySplit '\n' buffer2) []) (seen, out)
      streamGo cs buffer2 p.1 p.2

/-- Source: `Planner.stream` — the sequence of tasks yielded for a given
sequence of LLM stream chunk contents. -/
def stream (chunks : List String) : List Task :=
  streamGo chunks [] [] []

end Planner

namespace FlatParser

/-- Source: `llm_compiler.py` lines 122-133 — accumulate arguments and,
inline, the dependencies contributed by each parsed value that starts
with `$` (first `\$(\d+)` match). -/
def parseArgs (argsStr : List Char) : List (String × String) × List Nat :=
  (pySplit ',' argsStr).foldl
    (fun (p : List (String × String) × List Nat) arg =>
      match splitFirst '=' arg with
      | none => p
      | some (k, v) =>
        let val : String := ⟨pyStrip isQuote (pyStrip isPySpace v)⟩
        let d := dictUpd p.1 ⟨pyStrip isPySpace k⟩ val
        let dep :=
          if val.data.head? = some '$' then
            match firstDollarNum val.data with
            | some n => p.2 ++ [n]
            | none => p.2
          else p.2
        (d, dep))
    ([], [])

/-- Source: `llm_compiler.py` lines 113-142 — rest of parsing one line in
the flat parser: the argument text is `split("(")[1].split(")")[0]`, and
the task is kept only when its tool is registered or is the sentinel
`join`. -/
def parseRest (reg : List String) (idx : Nat) (p1 : List Char) : Option Task :=
  let content := pyStrip isPySpace p1
  if content.contains '(' && content.contains ')' then
    let toolName : String := ⟨pyStrip isPySpace (content.takeWhile (fun c => c ≠ '('))⟩
    let chunk := (content.drop (pyFindIdx '(' content + 1)).takeWhile (fun c => c ≠ '(')
    let argsStr := chunk.takeWhile (fun c => c ≠ ')')
    let p := if argsStr.isEmpty then ([], []) else parseArgs argsStr
    if reg.contains toolName || toolName = "join" then
      some ⟨idx, toolName, p.1, p.2⟩
    else none
  else none

/-- Source: `llm_compiler.py` lines 97-144 — fold over the lines with the
`seen_indices` set (an index is consumed as soon as it is read). -/
def parseGo (reg : List String) : List (List Char) → List Nat → List Task
  | [], _ => []
  | l :: ls, seen =>
    match Planner.parseStage1 l with
    | none => parseGo reg ls seen
    | some (idx, p1, _) =>
      if idx ∈ seen then parseGo reg ls seen
      else
        match parseRest reg idx p1 with
        | none => parseGo reg ls (idx :: seen)
        | some t => t :: parseGo reg ls (idx :: seen)

/-- Source: `LLMCompilerPlanParser._parse_tasks` — split the buffer on
newlines and parse each line against the registered tool names. -/
def parseTasks (reg : List String) (content : String) : List Task :=
  parseGo reg (pySplit '\n' content.data) []

end FlatParser

/-- Result map of the scheduler: Python dict keyed by task index.
Assignment updates in place, lookup is by key. -/
abbrev Results := List (Nat × String)

/-- Python dict lookup. -/
def lookupRes : Results → Nat → Option String
  | [], _ => none
  | (k, v) :: rest, n => if k = n then some v else lookupRes rest n

/-- Python `k in dict`. -/
def containsRes (res : Results) (n : Nat) : Bool :=
  (lookupRes res n).isSome

/-- Python dict assignment `res[k] = v` (update in place or append). -/
def insertRes : Results → Nat → String → Results
  | [], n, v => [(n, v)]
  | (k, v0) :: rest, n, v =>
    if k = n then (k, v) :: rest else (k, v0) :: insertRes rest n v

/-- A registered tool: a name paired with an invocation that either
returns a string or raises (models `BaseTool.invoke`). -/
abbrev ToolFn := List (String × String) → Except String String

/-- The tool registry `tools_dict` built by the scheduler. -/
abbrev Tools := List (String × ToolFn)

/-- Python dict lookup on the tool registry. -/
def lookupTool : Tools → String → Option ToolFn
  | [], _ => none
  | (k, f) :: rest, n => if k = n then some f else lookupTool rest n

namespace Scheduler

/-- Source: `scheduler.py` lines 85-97 (`_resolve_arg`) — substitute
every `\$\{?(\d+)\}?` whose index is in the result map with the stored
result; unmatched references are left literal. -/
def resolveChars (res : Results) : List Char → List Char
  | [] => []
  | c :: rest =>
    if c = '$' then
      let bl := if rest.head? = some '{' then 1 else 0
      let afterBrace := rest.drop bl
      let ds := afterBrace.takeWhile Char.isDigit
      if ds.isEmpty then c :: resolveChars res rest
      else
        let afterDigits := afterBrace.drop ds.length
        let cl := if afterDigits.head? = some '}' then 1 else 0
        let matched := c :: rest.take bl ++ ds ++ afterDigits.take cl
        let repl :=
          match lookupRes res (digitsToNat ds) with
          | some v => v.data
          | none => matched
        repl ++ resolveChars res (afterDigits.drop cl)
    else c :: resolveChars res rest
termination_by l => l.length
decreasing_by
  · simp only [List.length_cons]; omega
  · simp only [List.length_cons, List.length_drop]; omega
  · simp only [List.length_cons]; omega

/-- Source: `scheduler.py` `_resolve_arg` on a `String`. -/
def resolveArg (arg : String) (res : Results) : String :=
  ⟨resolveChars res arg.data⟩

/-- Source: `scheduler.py` lines 108-110 — arguments with `$N`
references resolved at launch time. -/
def resolvedArgs (t : Task) (res : Results) : List (String × String) :=
  t.args.map (fun kv => (kv.1, resolveArg kv.2 res))

/-- Source: `scheduler.py` lines 99-111 (`_execute_task`) — look the tool
up by name (a missing name raises `KeyError`, whose message is the
quoted key) and invoke it on the resolved arguments. -/
def executeTask (tools : Tools) (t : Task) (res : Results) : Except String String :=
  match lookupTool tools t.tool with
  | none => .error (squoteStr ++ t.tool ++ squoteStr)
  | some f => f (resolvedArgs t res)

/-- Source: `scheduler.py` lines 113-139 (`_schedule_task`) — the string
written into the result map: the tool result, or `ERROR: <message>` when
the invocation raised. -/
def runTask (tools : Tools) (t : Task) (res : Results) : String :=
  match executeTask tools t res with
  | .ok r => r
  | .error e => "ERROR: " ++ e

/-- Source: `scheduler.py` lines 34 and 157 — a task is ready when no
dependency is missing from the result map. -/
def depsReady (t : Task) (res : Results) : Bool :=
  t.dependencies.all (fun d => containsRes res d)

/-- Source: `scheduler.py` lines 141-164 — default polling interval of
`_schedule_pending_task` in seconds. -/
def retryAfterDefault : ℚ := 0.2

/-- A worker submitted to the thread pool: a waiter polling for its
task's dependencies, a worker about to invoke its task, or a finished
future. -/
inductive Worker where
  | waiting (t : Task)
  | ready (t : Task)
  | done
deriving DecidableEq, Repr

/-- Scheduler state: tasks the main loop has not yet consumed from the
planner, the `processed_tasks` list, the submitted workers, the shared
result map, and the log of tasks whose tool invocation has run. -/
structure SState where
  pending : List Task
  processed : List Task
  workers : List Worker
  results : Results
  invoked : List Task
deriving DecidableEq, Repr

/-- Labels of scheduler transitions. -/
inductive SLabel where
  | submit (t : Task)
  | promote (t : Task)
  | invoke (t : Task)

/-- Source: `scheduler.py` lines 28-67 and 141-164 — interleaving
small-step semantics of `Scheduler.schedule_tasks`.

* `submit_ready`/`submit_wait`: the main loop takes the next task and
  submits either an immediate worker (`_schedule_task`) or a waiter
  (`_schedule_pending_task`), depending on whether some dependency is
  missing from the result map.
* `promote`: a waiter's poll finds every dependency present and proceeds
  to execute its task.
* `invoke`: a worker runs `_schedule_task`: it resolves the arguments
  against the current result map, invokes the tool and writes the result
  (or the `ERROR:` string) to the map. -/
inductive Step (tools : Tools) : SState → SLabel → SState → Prop where
  | submit_ready : ∀ t rest proc ws res inv,
      depsReady t res = true →
      Step tools ⟨t :: rest, proc, ws, res, inv⟩ (.submit t)
        ⟨rest, proc ++ [t], ws ++ [.ready t], res, inv⟩
  | submit_wait : ∀ t rest proc ws res inv,
      depsReady t res = false →
      Step tools ⟨t :: rest, proc, ws, res, inv⟩ (.submit t)
        ⟨rest, proc ++ [t], ws ++ [.waiting t], res, inv⟩
  | promote : ∀ t pend proc w1 w2 res inv,
      depsReady t res = true →
      Step tools ⟨pend, proc, w1 ++ Worker.waiting t :: w2, res, inv⟩ (.promote t)
        ⟨pend, proc, w1 ++ Worker.ready t :: w2, res, inv⟩
  | invoke : ∀ t pend proc w1 w2 res inv,
      Step tools ⟨pend, proc, w1 ++ Worker.ready t :: w2, res, inv⟩ (.invoke t)
        ⟨pend, proc, w1 ++ Worker.done :: w2,
          insertRes res t.idx (runTask tools t res), inv ++ [t]⟩

/-- Reflexive-transitive closure of scheduler steps. -/
inductive Reachable (tools : Tools) : SState → SState → Prop where
  | refl : ∀ s, Reachable tools s s
  | tail : ∀ s s' s'' lbl, Reachable tools s s' → Step tools s' lbl s'' →
      Reachable tools s s''

/-- Initial scheduler state for a task list and a seeded result map. -/
def initState (tasks : List Task) (seed : Results) : SState :=
  ⟨tasks, [], [], seed, []⟩

/-- The run is complete: the main loop consumed every task and
`wait(futures)` returned (every worker is done). -/
def finished (s : SState) : Prop :=
  s.pending = [] ∧ ∀ w ∈ s.workers, w = Worker.done

/-- One emitted message (`FunctionMessage(name, content,
additional_kwargs={idx, args}, tool_call_id=idx)`). -/
structure FMessage where
  name : String
  content : String
  idx : Nat
  args : List (String × String)
deriving DecidableEq, Repr

/-- Source: `scheduler.py` lines 72-83 — after all futures complete, emit
one message per processed task whose index is in the result map, in
`processed_tasks` order. -/
def emitMessages (s : SState) : List FMessage :=
  s.processed.filterMap
    (fun t =>
      match lookupRes s.results t.idx with
      | some v => some ⟨t.tool, v, t.idx, t.args⟩
      | none => none)

/-- A message from the prior conversation, as far as the scheduler reads
it: `additional_kwargs["idx"]` when present, and the content. -/
structure Message where
  idx : Option Nat
  content : String

/-- Source: `scheduler.py` lines 166-179 (`_get_task_results`) — seed the
result map from messages that carry an `idx`. -/
def getTaskResults (msgs : List Message) : Results :=
  msgs.foldl
    (fun m msg =>
      match msg.idx with
      | some i => insertRes m i msg.content
      | none => m)
    []

end Scheduler

namespace Spec

/-- Every integer captured by `\$\{?(\d+)\}?` anywhere in a value, in
scan order (the specification's dependency-extraction pattern). The scan
restarts at the character after the `$` rather than after the whole
match; this is equivalent because a match never contains another `$`. -/
def allDollarNums : List Char → List Nat
  | [] => []
  | c :: rest =>
    if c = '$' then
      let bl := if rest.head? = some '{' then 1 else 0
      let ds := (rest.drop bl).takeWhile Char.isDigit
      if ds.isEmpty then allDollarNums rest
      else digitsToNat ds :: allDollarNums rest
    else allDollarNums rest

/-- Insert into an ascending duplicate-free list of naturals. -/
def insertAsc (n : Nat) : List Nat → List Nat
  | [] => [n]
  | x :: xs =>
    if n < x then n :: x :: xs
    else if n = x then x :: xs
    else x :: insertAsc n xs

/-- Spec-side dependency extraction (`spec.md` §4.1): the union of every
`$N`/`${N}` integer in any argument value with the explicit deps list,
de-duplicated and in ascending order. -/
def specDependencies (args : List (String × String)) (explicit : List Nat) : List Nat :=
  ((args.foldl (fun acc kv => acc ++ allDollarNums kv.2.data) []) ++ explicit).foldl
    (fun acc n => insertAsc n acc) []

/-- Join rendered parts with a separator. -/
def joinParts (sep : List Char) : List (List Char) → List Char
  | [] => []
  | [x] => x
  | x :: y :: rest => x ++ sep ++ joinParts sep (y :: rest)

/-- Modelled from the spec: one rendered `k='v'` pair of the plan wire
format. -/
def argPart (kv : String × String) : List Char :=
  kv.1.data ++ '=' :: squote :: kv.2.data ++ [squote]

/-- Modelled from the spec: the repository has no task renderer under
`src/`; this renders the `{k}='{v}'` argument list of the plan wire
format of `spec.md` §6. -/
def renderArgsChars (args : List (String × String)) : List Char :=
  joinParts [',', ' '] (args.map argPart)

/-- Modelled from the spec: the optional `(deps: [...])` clause of the
wire format, omitted when there are no dependencies. -/
def depsCharsOf (ds : List Nat) : List Char :=
  if ds.isEmpty then []
  else " (deps: [".data ++ joinParts [',', ' '] (ds.map natDigits) ++ "])".data

/-- Modelled from the spec: one task line of the plan wire format
`{idx}. {tool}({k}='{v}', ...) (deps: [...])` (`spec.md` §6). -/
def renderLine (t : Task) : List Char :=
  natDigits t.idx ++ '.' :: ' ' :: t.tool.data ++
    '(' :: renderArgsChars t.args ++ ')' :: depsCharsOf t.dependencies

/-- Modelled from the spec: the rendered task line as a string. -/
def renderTask (t : Task) : String :=
  ⟨renderLine t⟩

end Spec

namespace Spec

/-- Characters allowed in a benign tool name: no separators, quotes,
placeholders, parentheses or whitespace. -/
def goodToolChar (c : Char) : Bool :=
  !(c = ',' || c = '(' || c = ')' || c = squote || c = '"' || c = '$' || isPySpace c)

/-- Characters allowed in a benign argument key: benign tool characters
except `=` and `:`. -/
def goodKeyChar (c : Char) : Bool :=
  goodToolChar c && !(c = '=' || c = ':')

/-- Characters allowed in a benign argument value: no commas, quotes,
parentheses, placeholders or newlines (inner whitespace is fine, the
rendered quotes protect it). -/
def goodValChar (c : Char) : Bool :=
  !(c = ',' || c = '(' || c = ')' || c = squote || c = '"' || c = '$' || c = '\n')

/-- A task that the wire format renders without a deps clause and with
benign tool, keys and values (distinct, nonempty keys). -/
def benignRT (t : Task) : Bool :=
  t.dependencies.isEmpty &&
  t.tool.data.all goodToolChar &&
  t.args.all (fun kv =>
    !kv.1.data.isEmpty && kv.1.data.all goodKeyChar && kv.2.data.all goodValChar) &&
  decide ((t.args.map Prod.fst).Nodup)

end Spec

/-! Helper lemmas about the embedded string primitives. -/

theorem pySplit_eq_single {c : Char} {l : List Char} (h : c ∉ l) :
    pySplit c l = [l] := by
  induction l with
  | nil => rfl
  | cons x xs ih =>
    simp only [List.mem_cons, not_or] at h
    simp [pySplit, ih h.2, Ne.symm h.1]

theorem dropWhile_eq_self_of_head {p : Char → Bool} {l : List Char}
    (h : ∀ c, l.head? = some c → p c = false) : l.dropWhile p = l := by
  cases l with
  | nil => rfl
  | cons x xs => simp [List.dropWhile_cons, h x rfl]

theorem pyStrip_eq_self_of_ends {p : Char → Bool} {l : List Char}
    (h1 : ∀ c, l.head? = some c → p c = false)
    (h2 : ∀ c, l.getLast? = some c → p c = false) : pyStrip p l = l := by
  unfold pyStrip
  rw [dropWhile_eq_self_of_head h1, dropWhile_eq_self_of_head, List.reverse_reverse]
  intro c hc
  exact h2 c (by rwa [List.head?_reverse] at hc)

theorem pyStrip_eq_self_of_all {p : Char → Bool} {l : List Char}
    (h : ∀ c ∈ l, p c = false) : pyStrip p l = l := by
  refine pyStrip_eq_self_of_ends (fun c hc => h c ?_) (fun c hc => h c ?_)
  · exact List.mem_of_mem_head? hc
  · exact List.mem_of_mem_getLast? hc

theorem takeWhile_append_of_all {p : Char → Bool} {a : List Char} {b0 : Char}
    {b : List Char} (ha : ∀ c ∈ a, p c = true) (hb : p b0 = false) :
    (a ++ b0 :: b).takeWhile p = a := by
  induction a with
  | nil => simp [List.takeWhile_cons, hb]
  | cons x xs ih =>
    have hx := ha x (by simp)
    simp only [List.cons_append, List.takeWhile_cons, hx]
    simp [ih (fun c hc => ha c (by simp [hc]))]

theorem splitFirst_append {c : Char} {a b : List Char} (h : c ∉ a) :
    splitFirst c (a ++ c :: b) = some (a, b) := by
  induction a with
  | nil => simp [splitFirst]
  | cons x xs ih =>
    simp only [List.mem_cons, not_or] at h
    simp [splitFirst, Ne.symm h.1, ih h.2]

theorem splitFirst_eq_none {c : Char} {l : List Char} (h : c ∉ l) :
    splitFirst c l = none := by
  induction l with
  | nil => rfl
  | cons x xs ih =>
    simp only [List.mem_cons, not_or] at h
    simp [splitFirst, Ne.symm h.1, ih h.2]

theorem contains_eq_true_of_mem {l : List Char} {c : Char} (h : c ∈ l) :
    l.contains c = true := by
  induction l with
  | nil => simp at h
  | cons x xs ih =>
    rcases List.mem_cons.mp h with h | h
    · subst h; simp [List.contains, List.elem_cons]
    · simp only [List.contains, List.elem_cons]
      split
      · rfl
      · simpa [List.contains] using ih h

/-! Facts about decimal digits. -/

theorem natDigitsAux_fuel_irrel :
    ∀ (n f1 f2 : Nat), n ≤ f1 → n ≤ f2 → natDigitsAux f1 n = natDigitsAux f2 n := by
  intro n
  induction n using Nat.strong_induction_on with
  | _ n ih =>
    intro f1 f2 h1 h2
    match f1, f2 with
    | 0, 0 => rfl
    | 0, f2 + 1 =>
      interval_cases n
      simp [natDigitsAux]
    | f1 + 1, 0 =>
      interval_cases n
      simp [natDigitsAux]
    | f1 + 1, f2 + 1 =>
      simp only [natDigitsAux]
      by_cases hn : n < 10
      · simp [hn]
      · rw [if_neg hn, if_neg hn]
        have hdiv : n / 10 < n := Nat.div_lt_self (by omega) (by norm_num)
        rw [ih (n / 10) hdiv f1 f2 (by omega) (by omega)]

theorem natDigits_eq (n : Nat) :
    natDigits n = if n < 10 then [Char.ofNat (48 + n)]
      else natDigits (n / 10) ++ [Char.ofNat (48 + n % 10)] := by
  by_cases hn : n < 10
  · rw [if_pos hn]
    unfold natDigits
    match n, hn with
    | 0, _ => simp [natDigitsAux]
    | (m + 1), hm => simp [natDigitsAux, hm]
  · rw [if_neg hn]
    unfold natDigits
    have hpos : ∃ m, n = m + 1 := ⟨n - 1, by omega⟩
    obtain ⟨m, rfl⟩ := hpos
    simp only [natDigitsAux, if_neg hn]
    have hdiv : (m + 1) / 10 < m + 1 := Nat.div_lt_self (by omega) (by norm_num)
    rw [natDigitsAux_fuel_irrel ((m + 1) / 10) m ((m + 1) / 10) (by omega) (by omega)]

theorem natDigits_ne_nil (n : Nat) : natDigits n ≠ [] := by
  rw [natDigits_eq]
  split <;> simp

theorem digit_char_isDigit {d : Nat} (h : d < 10) :
    (Char.ofNat (48 + d)).isDigit = true := by
  interval_cases d <;> decide

theorem natDigits_all_digits (n : Nat) : ∀ c ∈ natDigits n, c.isDigit = true := by
  induction n using Nat.strong_induction_on with
  | _ n ih =>
    rw [natDigits_eq]
    split
    next h =>
      intro c hc
      simp only [List.mem_singleton] at hc
      subst hc
      exact digit_char_isDigit h
    next h =>
      intro c hc
      simp only [List.mem_append, List.mem_singleton] at hc
      rcases hc with hc | hc
      · exact ih (n / 10) (Nat.div_lt_self (by omega) (by norm_num)) c hc
      · subst hc
        exact digit_char_isDigit (Nat.mod_lt _ (by norm_num))

theorem toNat_digit_char {d : Nat} (h : d < 10) :
    (Char.ofNat (48 + d)).toNat = 48 + d := by
  interval_cases d <;> decide

theorem digitsToNat_natDigits (n : Nat) : digitsToNat (natDigits n) = n := by
  induction n using Nat.strong_induction_on with
  | _ n ih =>
    rw [natDigits_eq]
    split
    next h => simp [digitsToNat, toNat_digit_char h]
    next h =>
      have hlt : n / 10 < n := Nat.div_lt_self (by omega) (by norm_num)
      have hmod : n % 10 < 10 := Nat.mod_lt _ (by norm_num)
      simp only [digitsToNat, List.foldl_append, List.foldl_cons, List.foldl_nil]
      have := ih (n / 10) hlt
      simp only [digitsToNat] at this
      rw [this, toNat_digit_char hmod]
      omega

theorem isDigit_not_pySpace {c : Char} (h : c.isDigit = true) :
    isPySpace c = false := by
  have h1 : c ≠ ' ' := by rintro rfl; exact absurd h (by decide)
  have h2 : c ≠ '\t' := by rintro rfl; exact absurd h (by decide)
  have h3 : c ≠ '\n' := by rintro rfl; exact absurd h (by decide)
  have h4 : c ≠ '\r' := by rintro rfl; exact absurd h (by decide)
  have h5 : c ≠ Char.ofNat 11 := by rintro rfl; exact absurd h (by decide)
  have h6 : c ≠ Char.ofNat 12 := by rintro rfl; exact absurd h (by decide)
  simp [isPySpace, h1, h2, h3, h4, h5, h6]

/-! Facts about the result map. -/

theorem lookupRes_insert_self (res : Results) (k : Nat) (v : String) :
    lookupRes (insertRes res k v) k = some v := by
  induction res with
  | nil => simp [insertRes, lookupRes]
  | cons kv rest ih =>
    by_cases h : kv.1 = k
    · simp [insertRes, lookupRes, h]
    · simp [insertRes, lookupRes, h, ih]

theorem lookupRes_insert_ne (res : Results) {k k' : Nat} (v : String)
    (h : k' ≠ k) : lookupRes (insertRes res k v) k' = lookupRes res k' := by
  induction res with
  | nil => simp [insertRes, lookupRes, Ne.symm h]
  | cons kv rest ih =>
    by_cases hk : kv.1 = k
    · subst hk
      simp [insertRes, lookupRes, Ne.symm h]
    · simp only [insertRes, if_neg hk, lookupRes]
      by_cases hk' : kv.1 = k' <;> simp [hk', ih]

theorem containsRes_insert_self (res : Results) (k : Nat) (v : String) :
    containsRes (insertRes res k v) k = true := by
  simp [containsRes, lookupRes_insert_self]

theorem containsRes_insert_of_containsRes {res : Results} {d : Nat}
    (k : Nat) (v : String) (h : containsRes res d = true) :
    containsRes (insertRes res k v) d = true := by
  by_cases hd : d = k
  · subst hd; exact containsRes_insert_self res d v
  · simpa [containsRes, lookupRes_insert_ne res v hd] using h

theorem depsReady_insert {t : Task} {res : Results} (k : Nat) (v : String)
    (h : Scheduler.depsReady t res = true) :
    Scheduler.depsReady t (insertRes res k v) = true := by
  simp only [Scheduler.depsReady, List.all_eq_true] at h ⊢
  exact fun d hd => containsRes_insert_of_containsRes k v (h d hd)

/-! Invariants of the scheduler's step semantics. -/

namespace Scheduler

/-- The error string recorded when the tool name is not registered
(`KeyError` rendered by `str`). -/
def keyErr (tool : String) : String :=
  "ERROR: " ++ (squoteStr ++ tool ++ squoteStr)

/-- Invariant of every state reachable from `initState tasks seed`:
the main loop preserves the task list; workers and invoked tasks come
from the task list; every ready worker saw all its dependencies in the
result map; every task is accounted for; and (when task indices are
unique) an invoked task with an unregistered tool has the `KeyError`
result recorded under its index. -/
def GoodState (tools : Tools) (tasks : List Task) (s : SState) : Prop :=
  (s.processed ++ s.pending = tasks) ∧
  (∀ t, Worker.waiting t ∈ s.workers → t ∈ tasks) ∧
  (∀ t, Worker.ready t ∈ s.workers → t ∈ tasks ∧ depsReady t s.results = true) ∧
  (∀ t ∈ s.invoked, t ∈ tasks) ∧
  (∀ t ∈ tasks, t ∈ s.pending ∨ Worker.waiting t ∈ s.workers ∨
     Worker.ready t ∈ s.workers ∨ t ∈ s.invoked) ∧
  ((tasks.map Task.idx).Nodup →
     ∀ t ∈ s.invoked, lookupTool tools t.tool = none →
       lookupRes s.results t.idx = some (keyErr t.tool))

theorem goodState_init (tools : Tools) (tasks : List Task) (seed : Results) :
    GoodState tools tasks (initState tasks seed) := by
  refine ⟨rfl, ?_, ?_, ?_, ?_, ?_⟩ <;> simp [initState]

theorem runTask_of_unregistered {tools : Tools} {t : Task} {res : Results}
    (h : lookupTool tools t.tool = none) :
    runTask tools t res = keyErr t.tool := by
  simp [runTask, executeTask, h, keyErr]

theorem goodState_step {tools : Tools} {tasks : List Task} {s s' : SState}
    {lbl : SLabel} (hstep : Step tools s lbl s') (hg : GoodState tools tasks s) :
    GoodState tools tasks s' := by
  obtain ⟨h1, h2, h3, h4, h5, h6⟩ := hg
  cases hstep with
  | submit_ready t rest proc ws res inv hready =>
    refine ⟨by simpa using h1, ?_, ?_, h4, ?_, h6⟩
    · intro t' ht'
      simp only [List.mem_append, List.mem_singleton] at ht'
      rcases ht' with ht' | ht'
      · exact h2 t' ht'
      · cases ht'
    · intro t' ht'
      simp only [List.mem_append, List.mem_singleton] at ht'
      rcases ht' with ht' | ht'
      · exact h3 t' ht'
      · obtain rfl : t' = t := by cases ht'; rfl
        refine ⟨?_, hready⟩
        have := h1
        simp only [← this]
        simp
    · intro t' ht'
      rcases h5 t' ht' with hp | hw | hr | hi
      · simp only [List.mem_cons] at hp
        rcases hp with hp | hp
        · subst hp
          right; right; left; simp
        · left; exact hp
      · right; left; simp [hw]
      · right; right; left; simp [hr]
      · right; right; right; exact hi
  | submit_wait t rest proc ws res inv hready =>
    refine ⟨by simpa using h1, ?_, ?_, h4, ?_, h6⟩
    · intro t' ht'
      simp only [List.mem_append, List.mem_singleton] at ht'
      rcases ht' with ht' | ht'
      · exact h2 t' ht'
      · obtain rfl : t' = t := by cases ht'; rfl
        have := h1
        simp only [← this]
        simp
    · intro t' ht'
      simp only [List.mem_append, List.mem_singleton] at ht'
      rcases ht' with ht' | ht'
      · exact h3 t' ht'
      · cases ht'
    · intro t' ht'
      rcases h5 t' ht' with hp | hw | hr | hi
      · simp only [List.mem_cons] at hp
        rcases hp with hp | hp
        · subst hp
          right; left; simp
        · left; exact hp
      · right; left; simp [hw]
      · right; right; left; simp [hr]
      · right; right; right; exact hi
  | promote t pend proc w1 w2 res inv hready =>
    refine ⟨h1, ?_, ?_, h4, ?_, h6⟩
    · intro t' ht'
      refine h2 t' ?_
      simp only [List.mem_append, List.mem_cons] at ht' ⊢
      rcases ht' with ht' | ht' | ht'
      · exact Or.inl ht'
      · cases ht'
      · exact Or.inr (Or.inr ht')
    · intro t' ht'
      simp only [List.mem_append, List.mem_cons] at ht'
      rcases ht' with ht' | ht' | ht'
      · exact h3 t' (by simp [ht'])
      · have heq : t' = t := by injection ht'
        subst heq
        refine ⟨h2 t' ?_, hready⟩
        simp
      · exact h3 t' (by simp [ht'])
    · intro t' ht'
      rcases h5 t' ht' with hp | hw | hr | hi
      · left; exact hp
      · simp only [List.mem_append, List.mem_cons] at hw
        rcases hw with hw | hw | hw
        · right; left; simp [hw]
        · obtain rfl : t' = t := by cases hw; rfl
          right; right; left; simp
        · right; left; simp [hw]
      · simp only [List.mem_append, List.mem_cons] at hr
        rcases hr with hr | hr | hr
        · right; right; left; simp [hr]
        · cases hr
        · right; right; left; simp [hr]
      · right; right; right; exact hi
  | invoke t pend proc w1 w2 res inv =>
    have htmem : t ∈ tasks := (h3 t (by simp)).1
    refine ⟨h1, ?_, ?_, ?_, ?_, ?_⟩
    · intro t' ht'
      refine h2 t' ?_
      simp only [List.mem_append, List.mem_cons] at ht' ⊢
      rcases ht' with ht' | ht' | ht'
      · exact Or.inl ht'
      · cases ht'
      · exact Or.inr (Or.inr ht')
    · intro t' ht'
      simp only [List.mem_append, List.mem_cons] at ht'
      have ht'' : Worker.ready t' ∈ w1 ++ Worker.ready t :: w2 := by
        simp only [List.mem_append, List.mem_cons]
        rcases ht' with ht' | ht' | ht'
        · exact Or.inl ht'
        · cases ht'
        · exact Or.inr (Or.inr ht')
      obtain ⟨hm, hd⟩ := h3 t' ht''
      exact ⟨hm, depsReady_insert _ _ hd⟩
    · intro t' ht'
      simp only [List.mem_append, List.mem_singleton] at ht'
      rcases ht' with ht' | ht'
      · exact h4 t' ht'
      · subst ht'; exact htmem
    · intro t' ht'
      rcases h5 t' ht' with hp | hw | hr | hi
      · left; exact hp
      · simp only [List.mem_append, List.mem_cons] at hw
        rcases hw with hw | hw | hw
        · right; left; simp [hw]
        · cases hw
        · right; left; simp [hw]
      · simp only [List.mem_append, List.mem_cons] at hr
        rcases hr with hr | hr | hr
        · right; right; left; simp [hr]
        · obtain rfl : t' = t := by cases hr; rfl
          right; right; right; simp
        · right; right; left; simp [hr]
      · right; right; right; simp [hi]
    · intro hnd t' ht' hto
      simp only [List.mem_append, List.mem_singleton] at ht'
      rcases ht' with ht' | ht'
      · by_cases hidx : t'.idx = t.idx
        · have : t' = t :=
            List.inj_on_of_nodup_map hnd (h4 t' ht') htmem hidx
          subst this
          rw [hidx, lookupRes_insert_self]
          rw [runTask_of_unregistered hto]
        · rw [lookupRes_insert_ne res _ hidx]
          exact h6 hnd t' ht' hto
      · subst ht'
        rw [lookupRes_insert_self, runTask_of_unregistered hto]

theorem goodState_reachable {tools : Tools} {tasks : List Task} {seed : Results}
    {s : SState} (h : Reachable tools (initState tasks seed) s) :
    GoodState tools tasks s := by
  induction h with
  | refl => exact goodState_init tools tasks seed
  | tail s' s'' lbl _ hstep ih => exact goodState_step hstep ih

/-- In a finished reachable run every input task has been invoked:
no task is skipped, whatever the seeded result map contains. -/
theorem invoked_of_finished {tools : Tools} {tasks : List Task} {seed : Results}
    {s : SState} (h : Reachable tools (initState tasks seed) s)
    (hf : finished s) : ∀ t ∈ tasks, t ∈ s.invoked := by
  obtain ⟨_, _, _, _, h5, _⟩ := goodState_reachable h
  intro t ht
  rcases h5 t ht with hp | hw | hr | hi
  · rw [hf.1] at hp
    cases hp
  · cases hf.2 _ hw
  · cases hf.2 _ hr
  · exact hi

/-- In a finished reachable run the processed list is exactly the input
task list. -/
theorem processed_of_finished {tools : Tools} {tasks : List Task} {seed : Results}
    {s : SState} (h : Reachable tools (initState tasks seed) s)
    (hf : finished s) : s.processed = tasks := by
  obtain ⟨h1, _, _, _, _, _⟩ := goodState_reachable h
  rw [hf.1, List.append_nil] at h1
  exact h1

/-- Resolving the placeholder `$N` substitutes the stored result. -/
theorem resolveChars_dollar (res : Results) (n : Nat) {v : String}
    (h : lookupRes res n = some v) :
    resolveChars res ('$' :: natDigits n) = v.data := by
  have hdigits := natDigits_all_digits n
  have hhead : ((natDigits n).head? = some '{') = False := by
    simp only [eq_iff_iff, iff_false]
    intro hh
    have hm : '{' ∈ natDigits n := List.mem_of_mem_head? hh
    exact absurd (hdigits _ hm) (by decide)
  have htake : (natDigits n).takeWhile Char.isDigit = natDigits n :=
    List.takeWhile_eq_self_iff.mpr hdigits
  rw [resolveChars]
  simp only [if_pos rfl, hhead, if_false, List.drop_zero, htake]
  have hne : ((natDigits n).isEmpty = true) = False := by
    simp [List.isEmpty_iff, natDigits_ne_nil n]
  simp only [hne, if_false, List.drop_length, digitsToNat_natDigits, h,
    List.head?_nil, List.drop_nil]
  rw [resolveChars]
  simp

end Scheduler

namespace Planner

/-- Characterization of the argument-derived dependency list. -/
theorem mem_argDollarDeps {args : List (String × String)} {d : Nat} :
    d ∈ argDollarDeps args ↔
      ∃ kv ∈ args, kv.2.data.head? = some '$' ∧ firstDollarNum kv.2.data = some d := by
  simp only [argDollarDeps, List.mem_filterMap]
  constructor
  · rintro ⟨kv, hkv, hf⟩
    by_cases hh : kv.2.data.head? = some '$'
    · rw [if_pos hh] at hf
      exact ⟨kv, hkv, hh, hf⟩
    · rw [if_neg hh] at hf
      cases hf
  · rintro ⟨kv, hkv, hh, hf⟩
    exact ⟨kv, hkv, by rw [if_pos hh]; exact hf⟩

/-- Inversion of `parseRest`: the emitted task keeps the given index and
its dependency list is the argument-derived dependencies followed by the
explicit clause of the line. -/
theorem parseRest_inv {idx : Nat} {p1 line : List Char} {t : Task}
    (h : parseRest idx p1 line = some t) :
    t.idx = idx ∧ t.dependencies = argDollarDeps t.args ++ clauseDeps line := by
  simp only [parseRest] at h
  split at h
  · cases h
    exact ⟨rfl, rfl⟩
  · cases h

/-- Inversion of `parseStage1`: the reported index. -/
theorem parseStage1_inv {l : List Char} {idx : Nat} {p1 sline : List Char}
    (h : parseStage1 l = some (idx, p1, sline)) : sline = pyStrip isPySpace l := by
  simp only [parseStage1] at h
  split at h
  · cases h
  · split at h
    · split at h
      · cases h
      · cases h
        rfl
    · cases h

/-- Every task produced under a seen-set has an index outside it. -/
theorem parseGo_seen : ∀ (lines : List (List Char)) (seen : List Nat) (t : Task),
    t ∈ parseGo lines seen → t.idx ∉ seen := by
  intro lines
  induction lines with
  | nil => intro seen t ht; cases ht
  | cons l ls ih =>
    intro seen t ht
    rw [parseGo] at ht
    rcases hs1 : parseStage1 l with _ | ⟨idx, p1, sline⟩
    · simp only [hs1] at ht
      exact ih seen t ht
    · simp only [hs1] at ht
      by_cases hseen : idx ∈ seen
      · rw [if_pos hseen] at ht
        exact ih seen t ht
      · rw [if_neg hseen] at ht
        rcases hr : parseRest idx p1 sline with _ | t0
        · simp only [hr] at ht
          have := ih _ t ht
          intro hc
          exact this (by simp [hc])
        · simp only [hr] at ht
          rcases List.mem_cons.mp ht with rfl | ht'
          · rw [(parseRest_inv hr).1]
            exact hseen
          · have := ih _ t ht'
            intro hc
            exact this (by simp [hc])

/-- The parser never emits two tasks with the same index. -/
theorem parseGo_nodup : ∀ (lines : List (List Char)) (seen : List Nat),
    ((parseGo lines seen).map Task.idx).Nodup := by
  intro lines
  induction lines with
  | nil => intro seen; simp [parseGo]
  | cons l ls ih =>
    intro seen
    rw [parseGo]
    rcases hs1 : parseStage1 l with _ | ⟨idx, p1, sline⟩
    · simp only [hs1]
      exact ih seen
    · simp only [hs1]
      by_cases hseen : idx ∈ seen
      · rw [if_pos hseen]
        exact ih seen
      · rw [if_neg hseen]
        rcases hr : parseRest idx p1 sline with _ | t0
        · simp only [hr]
          exact ih _
        · simp only [hr, List.map_cons, List.nodup_cons]
          refine ⟨?_, ih _⟩
          intro hc
          obtain ⟨t, ht, hidx⟩ := List.mem_map.mp hc
          have := parseGo_seen ls (idx :: seen) t ht
          rw [hidx, (parseRest_inv hr).1] at this
          exact this (by simp)

/-- Provenance: every emitted task comes from one of the lines, through
`parseStage1` and `parseRest`. -/
theorem parseGo_prov : ∀ (lines : List (List Char)) (seen : List Nat) (t : Task),
    t ∈ parseGo lines seen →
    ∃ l ∈ lines, ∃ p1 sline, parseStage1 l = some (t.idx, p1, sline) ∧
      parseRest t.idx p1 sline = some t := by
  intro lines
  induction lines with
  | nil => intro seen t ht; cases ht
  | cons l ls ih =>
    intro seen t ht
    rw [parseGo] at ht
    rcases hs1 : parseStage1 l with _ | ⟨idx, p1, sline⟩
    · simp only [hs1] at ht
      obtain ⟨l', hl', rest⟩ := ih seen t ht
      exact ⟨l', by simp [hl'], rest⟩
    · simp only [hs1] at ht
      by_cases hseen : idx ∈ seen
      · rw [if_pos hseen] at ht
        obtain ⟨l', hl', rest⟩ := ih seen t ht
        exact ⟨l', by simp [hl'], rest⟩
      · rw [if_neg hseen] at ht
        rcases hr : parseRest idx p1 sline with _ | t0
        · simp only [hr] at ht
          obtain ⟨l', hl', rest⟩ := ih _ t ht
          exact ⟨l', by simp [hl'], rest⟩
        · simp only [hr] at ht
          rcases List.mem_cons.mp ht with rfl | ht'
          · refine ⟨l, by simp, p1, sline, ?_, ?_⟩
            · rw [(parseRest_inv hr).1]
              exact hs1
            · rw [(parseRest_inv hr).1]
              exact hr
          · obtain ⟨l', hl', rest⟩ := ih _ t ht'
            exact ⟨l', by simp [hl'], rest⟩

/-- When the first line of the buffer claims an index that is not yet
seen and parses completely, its task is emitted and the index is
consumed for the remaining lines. -/
theorem parseGo_first_wins {l : List Char} {ls : List (List Char)} {seen : List Nat}
    {idx : Nat} {p1 sline : List Char} {t : Task}
    (h1 : parseStage1 l = some (idx, p1, sline)) (h2 : idx ∉ seen)
    (h3 : parseRest idx p1 sline = some t) :
    parseGo (l :: ls) seen = t :: parseGo ls (idx :: seen) := by
  rw [parseGo]
  simp only [h1, h3]
  rw [if_neg h2]

end Planner

namespace FlatParser

/-- The flat parser only emits tasks whose tool is registered or is the
sentinel `join`. -/
theorem parseRest_tool {reg : List String} {idx : Nat} {p1 : List Char} {t : Task}
    (h : parseRest reg idx p1 = some t) :
    reg.contains t.tool = true ∨ t.tool = "join" := by
  simp only [parseRest] at h
  split at h
  · split at h
    · cases h
      rename_i hcond
      rcases Bool.or_eq_true_iff.mp hcond with hc | hc
      · exact Or.inl hc
      · exact Or.inr (by simpa using hc)
    · cases h
  · cases h

/-- Registry closure for the flat parser's line fold. -/
theorem parseGo_tools : ∀ (reg : List String) (lines : List (List Char))
    (seen : List Nat) (t : Task), t ∈ parseGo reg lines seen →
    reg.contains t.tool = true ∨ t.tool = "join" := by
  intro reg lines
  induction lines with
  | nil => intro seen t ht; cases ht
  | cons l ls ih =>
    intro seen t ht
    rw [parseGo] at ht
    rcases hs1 : Planner.parseStage1 l with _ | ⟨idx, p1, sline⟩
    · simp only [hs1] at ht
      exact ih seen t ht
    · simp only [hs1] at ht
      by_cases hseen : idx ∈ seen
      · rw [if_pos hseen] at ht
        exact ih seen t ht
      · rw [if_neg hseen] at ht
        rcases hr : parseRest reg idx p1 with _ | t0
        · simp only [hr] at ht
          exact ih _ t ht
        · simp only [hr] at ht
          rcases List.mem_cons.mp ht with rfl | ht'
          · exact parseRest_tool hr
          · exact ih _ t ht'

end FlatParser

namespace Planner

/-- Tasks accumulated by the yield loop come from the prior output or
from the freshly parsed buffer. -/
theorem emitNew_mem : ∀ (ts : List Task) (p : List Nat × List Task) (t : Task),
    t ∈ (emitNew ts p).2 → t ∈ p.2 ∨ t ∈ ts := by
  intro ts
  induction ts with
  | nil => intro p t ht; exact Or.inl ht
  | cons t0 ts ih =>
    intro p t ht
    rw [emitNew, List.foldl_cons] at ht
    rcases ih _ t ht with ht' | ht'
    · by_cases h0 : t0.idx ∈ p.1
      · rw [if_pos h0] at ht'
        exact Or.inl ht'
      · rw [if_neg h0] at ht'
        simp only [List.mem_append, List.mem_singleton] at ht'
        rcases ht' with ht' | rfl
        · exact Or.inl ht'
        · exact Or.inr (by simp)
    · exact Or.inr (by simp [ht'])

/-- The yield loop keeps output indices unique and inside the seen set. -/
theorem emitNew_inv : ∀ (ts : List Task) (p : List Nat × List Task),
    (p.2.map Task.idx).Nodup → (∀ t ∈ p.2, t.idx ∈ p.1) →
    ((emitNew ts p).2.map Task.idx).Nodup ∧
      ∀ t ∈ (emitNew ts p).2, t.idx ∈ (emitNew ts p).1 := by
  intro ts
  induction ts with
  | nil => intro p h1 h2; exact ⟨h1, h2⟩
  | cons t0 ts ih =>
    intro p h1 h2
    rw [emitNew, List.foldl_cons]
    by_cases h0 : t0.idx ∈ p.1
    · rw [if_pos h0]
      exact ih p h1 h2
    · rw [if_neg h0]
      refine ih _ ?_ ?_
      · simp only [List.map_append, List.map_cons, List.map_nil]
        rw [List.nodup_append]
        refine ⟨h1, by simp, ?_⟩
        intro a ha
        simp only [List.mem_singleton]
        obtain ⟨t, ht, rfl⟩ := List.mem_map.mp ha
        intro hc
        exact h0 (hc ▸ h2 t ht)
      · intro t ht
        simp only [List.mem_append, List.mem_singleton] at ht
        rcases ht with ht | rfl
        · exact List.mem_cons_of_mem _ (h2 t ht)
        · exact List.mem_cons_self _ _

/-- The stream loop yields pairwise distinct task indices. -/
theorem streamGo_nodup : ∀ (cs : List String) (buffer : List Char)
    (seen : List Nat) (out : List Task),
    (out.map Task.idx).Nodup → (∀ t ∈ out, t.idx ∈ seen) →
    ((streamGo cs buffer seen out).map Task.idx).Nodup := by
  intro cs
  induction cs with
  | nil => intro buffer seen out h1 _; exact h1
  | cons c cs ih =>
    intro buffer seen out h1 h2
    rw [streamGo]
    by_cases hc : c.data.isEmpty
    · rw [if_pos hc]
      exact ih buffer seen out h1 h2
    · rw [if_neg hc]
      obtain ⟨h1', h2'⟩ :=
        emitNew_inv (parseGo (pySplit '\n' (buffer ++ c.data)) []) (seen, out) h1 h2
      exact ih _ _ _ h1' h2'

/-- Provenance of the stream loop: every yielded task was parsed from
the concatenation of some prefix of the chunks. -/
theorem streamGo_prov : ∀ (cs : List String) (buffer : List Char)
    (seen : List Nat) (out : List Task) (t : Task),
    t ∈ streamGo cs buffer seen out →
    t ∈ out ∨ ∃ ds es, cs = ds ++ es ∧
      t ∈ parseGo (pySplit '\n' (buffer ++ (ds.map String.data).flatten)) [] := by
  intro cs
  induction cs with
  | nil => intro buffer seen out t ht; exact Or.inl ht
  | cons c cs ih =>
    intro buffer seen out t ht
    rw [streamGo] at ht
    by_cases hc : c.data.isEmpty
    · rw [if_pos hc] at ht
      have hcd : c.data = [] := by simpa [List.isEmpty_iff] using hc
      rcases ih buffer seen out t ht with ht' | ⟨ds, es, hcs, hmem⟩
      · exact Or.inl ht'
      · refine Or.inr ⟨c :: ds, es, by simp [hcs], ?_⟩
        simpa [hcd] using hmem
    · rw [if_neg hc] at ht
      rcases ih _ _ _ t ht with ht' | ⟨ds, es, hcs, hmem⟩
      · rcases emitNew_mem _ _ t ht' with ht'' | ht''
        · exact Or.inl ht''
        · refine Or.inr ⟨[c], cs, rfl, ?_⟩
          simpa using ht''
      · refine Or.inr ⟨c :: ds, es, by simp [hcs], ?_⟩
        simpa [List.append_assoc] using hmem

end Planner

namespace Scheduler

/-- The emitted message indices form a sublist of the processed task
indices (messages follow processing order). -/
theorem emit_idx_sublist (res : Results) : ∀ l : List Task,
    ((l.filterMap fun t =>
        match lookupRes res t.idx with
        | some v => some (⟨t.tool, v, t.idx, t.args⟩ : FMessage)
        | none => none)).map FMessage.idx |>.Sublist (l.map Task.idx) := by
  intro l
  induction l with
  | nil => simp
  | cons t l ih =>
    simp only [List.filterMap_cons, List.map_cons]
    rcases h : lookupRes res t.idx with _ | v
    · exact ih.cons t.idx
    · simp only [List.map_cons]
      exact ih.cons₂ t.idx

end Scheduler

/-! Lemmas for the wire-format round trip (C9). -/

theorem pySplit_ne_nil (c : Char) (l : List Char) : pySplit c l ≠ [] := by
  cases l with
  | nil => simp [pySplit]
  | cons x xs =>
    rw [pySplit]
    rcases h : pySplit c xs with _ | ⟨h0, t0⟩
    · simp
    · by_cases hx : x = c <;> simp [hx]

theorem pySplit_append {c : Char} {a : List Char} (b : List Char) (h : c ∉ a) :
    pySplit c (a ++ c :: b) = a :: pySplit c b := by
  induction a with
  | nil =>
    rcases hb : pySplit c b with _ | ⟨h0, t0⟩
    · exact absurd hb (pySplit_ne_nil c b)
    · simp [pySplit, hb]
  | cons x xs ih =>
    simp only [List.mem_cons, not_or] at h
    rw [List.cons_append, pySplit, ih h.2]
    simp [Ne.symm h.1]

theorem pySplit_cons_of_ne {c x : Char} {l : List Char} (h : x ≠ c) :
    pySplit c (x :: l) =
      (x :: (pySplit c l).headI) :: (pySplit c l).tail := by
  rw [pySplit]
  rcases hl : pySplit c l with _ | ⟨h0, t0⟩
  · exact absurd hl (pySplit_ne_nil c l)
  · simp [h]

theorem mem_joinParts {sep : List Char} {ps : List (List Char)} {c : Char}
    (h : c ∈ Spec.joinParts sep ps) : (∃ p ∈ ps, c ∈ p) ∨ c ∈ sep := by
  induction ps with
  | nil => cases h
  | cons p ps ih =>
    cases ps with
    | nil =>
      simp only [Spec.joinParts] at h
      exact Or.inl ⟨p, by simp, h⟩
    | cons q qs =>
      rw [Spec.joinParts] at h
      simp only [List.mem_append] at h
      rcases h with (h | h) | h
      · exact Or.inl ⟨p, by simp, h⟩
      · exact Or.inr h
      · rcases ih h with ⟨p', hp', hc⟩ | hc
        · exact Or.inl ⟨p', by simp [hp'], hc⟩
        · exact Or.inr hc

/-- Splitting the rendered argument list on commas recovers the parts
(later parts keep the leading space of the `", "` separator). -/
theorem pySplit_joinParts : ∀ (ps : List (List Char)), (∀ p ∈ ps, ',' ∉ p) →
    ps ≠ [] → pySplit ',' (Spec.joinParts [',', ' '] ps) =
      ps.headI :: ps.tail.map (fun q => ' ' :: q) := by
  intro ps
  induction ps with
  | nil => intro _ h; cases h rfl
  | cons p ps ih =>
    intro hmem _
    cases ps with
    | nil =>
      simp only [Spec.joinParts]
      rw [pySplit_eq_single (hmem p (by simp))]
      rfl
    | cons q qs =>
      rw [Spec.joinParts]
      have hp : ',' ∉ p := hmem p (by simp)
      have hrest : pySplit ',' (Spec.joinParts [',', ' '] (q :: qs)) =
          q :: qs.map (fun r => ' ' :: r) :=
        ih (fun r hr => hmem r (by simp [hr])) (by simp)
      have : p ++ [','] ++ (' ' :: Spec.joinParts [',', ' '] (q :: qs)) =
          p ++ ',' :: (' ' :: Spec.joinParts [',', ' '] (q :: qs)) := by simp
      rw [show p ++ [',', ' '] ++ Spec.joinParts [',', ' '] (q :: qs) =
          p ++ ',' :: (' ' :: Spec.joinParts [',', ' '] (q :: qs)) by simp,
        pySplit_append _ hp,
        pySplit_cons_of_ne (by decide), hrest]
      rfl

/-- `dictUpd` with a fresh key appends. -/
theorem dictUpd_fresh {d : List (String × String)} {k : String} (v : String)
    (h : k ∉ d.map Prod.fst) : dictUpd d k v = d ++ [(k, v)] := by
  induction d with
  | nil => rfl
  | cons kv rest ih =>
    simp only [List.map_cons, List.mem_cons, not_or] at h
    rw [dictUpd, if_neg (Ne.symm h.1), ih h.2]
    rfl

/-- Stripping the rendered quotes recovers a quote-free value. -/
theorem pyStrip_quotes {v : List Char} (h : ∀ c ∈ v, isQuote c = false) :
    pyStrip isQuote (squote :: v ++ [squote]) = v := by
  cases v with
  | nil => rfl
  | cons a v' =>
    have ha : isQuote a = false := h a (by simp)
    have h1 : List.dropWhile isQuote (squote :: (a :: v') ++ [squote]) =
        (a :: v') ++ [squote] := by
      rw [show squote :: (a :: v') ++ [squote] =
        squote :: ((a :: v') ++ [squote]) from rfl]
      rw [List.dropWhile_cons]
      simp only [show isQuote squote = true by decide, if_true]
      rw [List.cons_append, List.dropWhile_cons, ha]
      simp
    have h2 : ((a :: v') ++ [squote]).reverse = squote :: (a :: v').reverse := by
      simp
    unfold pyStrip
    rw [h1, h2, List.dropWhile_cons]
    simp only [show isQuote squote = true by decide, if_true]
    rw [dropWhile_eq_self_of_head, List.reverse_reverse]
    intro c hc
    refine h c ?_
    have := List.mem_of_mem_head? hc
    rwa [List.mem_reverse] at this

/-- The unique occurrence of a character splits a concatenation
unambiguously. -/
theorem append_cons_unique {c : Char} : ∀ (P l1 Q l2 : List Char), c ∉ P → c ∉ Q →
    P ++ c :: Q = l1 ++ c :: l2 → l2 = Q := by
  intro P
  induction P with
  | nil =>
    intro l1 Q l2 _ hQ heq
    cases l1 with
    | nil => exact (by simpa using heq : Q = l2).symm
    | cons x l1' =>
      simp only [List.nil_append, List.cons_append, List.cons.injEq] at heq
      obtain ⟨rfl, heq⟩ := heq
      refine absurd ?_ hQ
      rw [heq]
      exact List.mem_append_right l1' (List.mem_cons_self _ _)
  | cons p P' ih =>
    intro l1 Q l2 hP hQ heq
    simp only [List.mem_cons, not_or] at hP
    cases l1 with
    | nil =>
      simp only [List.cons_append, List.nil_append, List.cons.injEq] at heq
      exact absurd heq.1.symm hP.1
    | cons x l1' =>
      simp only [List.cons_append, List.cons.injEq] at heq
      exact ih l1' Q l2 hP.2 hQ heq.2

/-- The `deps:` literal cannot be a prefix of a benign key followed by
`=`. -/
theorem not_depsTail_prefix : ∀ (k r : List Char), ':' ∉ k → '=' ∉ k →
    (['d', 'e', 'p', 's', ':'].isPrefixOf (k ++ '=' :: r)) = false := by
  intro k r hcolon heq
  match k with
  | [] => rfl
  | [a] =>
    simp only [List.cons_append, List.nil_append, List.isPrefixOf,
      show ('e' == '=') = false from by decide, Bool.false_and, Bool.and_false]
  | [a, b] =>
    simp only [List.cons_append, List.nil_append, List.isPrefixOf,
      show ('p' == '=') = false from by decide, Bool.false_and, Bool.and_false]
  | [a, b, c] =>
    simp only [List.cons_append, List.nil_append, List.isPrefixOf,
      show ('s' == '=') = false from by decide, Bool.false_and, Bool.and_false]
  | [a, b, c, d] =>
    simp only [List.cons_append, List.nil_append, List.isPrefixOf,
      show ((':' : Char) == '=') = false from by decide, Bool.false_and, Bool.and_false]
  | a :: b :: c :: d :: e :: k' =>
    simp only [List.cons_append, List.isPrefixOf]
    by_contra hcontra
    simp only [Bool.not_eq_false, Bool.and_eq_true, beq_iff_eq] at hcontra
    obtain ⟨-, -, -, -, he, -⟩ := hcontra
    exact hcolon (by simp [← he])

theorem goodToolChar_props {c : Char} (h : Spec.goodToolChar c = true) :
    c ≠ ',' ∧ c ≠ '(' ∧ c ≠ ')' ∧ c ≠ squote ∧ c ≠ '"' ∧ c ≠ '$' ∧
      isPySpace c = false := by
  rw [Spec.goodToolChar, Bool.not_eq_true'] at h
  simp only [Bool.or_eq_false_iff, decide_eq_false_iff_not] at h
  exact ⟨h.1.1.1.1.1.1, h.1.1.1.1.1.2, h.1.1.1.1.2, h.1.1.1.2, h.1.1.2, h.1.2, h.2⟩

theorem goodKeyChar_props {c : Char} (h : Spec.goodKeyChar c = true) :
    (c ≠ ',' ∧ c ≠ '(' ∧ c ≠ ')' ∧ c ≠ squote ∧ c ≠ '"' ∧ c ≠ '$' ∧
      isPySpace c = false) ∧ c ≠ '=' ∧ c ≠ ':' := by
  rw [Spec.goodKeyChar, Bool.and_eq_true] at h
  refine ⟨goodToolChar_props h.1, ?_⟩
  have h2 := h.2
  rw [Bool.not_eq_true'] at h2
  simp only [Bool.or_eq_false_iff, decide_eq_false_iff_not] at h2
  exact h2

theorem goodValChar_props {c : Char} (h : Spec.goodValChar c = true) :
    c ≠ ',' ∧ c ≠ '(' ∧ c ≠ ')' ∧ c ≠ squote ∧ c ≠ '"' ∧ c ≠ '$' ∧ c ≠ '\n' := by
  rw [Spec.goodValChar, Bool.not_eq_true'] at h
  simp only [Bool.or_eq_false_iff, decide_eq_false_iff_not] at h
  exact ⟨h.1.1.1.1.1.1, h.1.1.1.1.1.2, h.1.1.1.1.2, h.1.1.1.2, h.1.1.2, h.1.2, h.2⟩

/-- Membership in one rendered `k='v'` part. -/
theorem mem_renderPart {c : Char} {k v : List Char}
    (h : c ∈ k ++ '=' :: squote :: v ++ [squote]) :
    c ∈ k ∨ c = '=' ∨ c = squote ∨ c ∈ v := by
  simp only [List.mem_append, List.mem_cons, List.mem_singleton] at h
  tauto

/-- Membership in the rendered argument text. -/
theorem mem_renderArgsChars {c : Char} {args : List (String × String)}
    (h : c ∈ Spec.renderArgsChars args) :
    (∃ kv ∈ args, c ∈ kv.1.data ∨ c ∈ kv.2.data) ∨
      c = ',' ∨ c = ' ' ∨ c = '=' ∨ c = squote := by
  rcases mem_joinParts h with ⟨p, hp, hcp⟩ | hsep
  · obtain ⟨kv, hkv, rfl⟩ := List.mem_map.mp hp
    rcases mem_renderPart hcp with hc | hc | hc | hc
    · exact Or.inl ⟨kv, hkv, Or.inl hc⟩
    · exact Or.inr (Or.inr (Or.inr (Or.inl hc)))
    · exact Or.inr (Or.inr (Or.inr (Or.inr hc)))
    · exact Or.inl ⟨kv, hkv, Or.inr hc⟩
  · simp only [List.mem_cons, List.mem_singleton] at hsep
    rcases hsep with hc | hc | hc
    · exact Or.inr (Or.inl hc)
    · exact Or.inr (Or.inr (Or.inl hc))
    · cases hc

/-- Facts about one benign key/value pair. -/
theorem benignKV_facts {kv : String × String}
    (_hk_ne : kv.1.data ≠ [])
    (hk : ∀ c ∈ kv.1.data, Spec.goodKeyChar c = true)
    (hv : ∀ c ∈ kv.2.data, Spec.goodValChar c = true) :
    ('=' ∉ kv.1.data) ∧ (∀ c ∈ kv.1.data, isPySpace c = false) ∧
      (∀ c ∈ kv.2.data, isQuote c = false) ∧ (',' ∉ Spec.argPart kv) := by
  have hkeq : '=' ∉ kv.1.data := fun hmem => (goodKeyChar_props (hk _ hmem)).2.1 rfl
  have hkws : ∀ c ∈ kv.1.data, isPySpace c = false :=
    fun c hc => (goodKeyChar_props (hk c hc)).1.2.2.2.2.2.2
  have hvq : ∀ c ∈ kv.2.data, isQuote c = false := by
    intro c hc
    obtain ⟨-, -, -, h4, h5, -⟩ := goodValChar_props (hv c hc)
    simp [isQuote, h4, h5]
  refine ⟨hkeq, hkws, hvq, ?_⟩
  intro hmem
  rcases mem_renderPart hmem with hc | hc | hc | hc
  · exact (goodKeyChar_props (hk _ hc)).1.1 rfl
  · cases hc
  · exact absurd hc.symm (by decide)
  · exact (goodValChar_props (hv _ hc)).1 rfl

/-- One fold step of `Planner.parseArgs` over a rendered part: the
leading-space variant (later parts). -/
theorem parseArgs_step_spaced (d : List (String × String)) (kv : String × String)
    (ps : List (List Char))
    (hk_ne : kv.1.data ≠ [])
    (hk : ∀ c ∈ kv.1.data, Spec.goodKeyChar c = true)
    (hv : ∀ c ∈ kv.2.data, Spec.goodValChar c = true) :
    List.foldl
      (fun d arg =>
        match splitFirst '=' arg with
        | none => d
        | some (k, v) =>
          dictUpd d ⟨pyStrip isPySpace k⟩ ⟨pyStrip isQuote (pyStrip isPySpace v)⟩)
      d ((' ' :: Spec.argPart kv) :: ps) =
    List.foldl
      (fun d arg =>
        match splitFirst '=' arg with
        | none => d
        | some (k, v) =>
          dictUpd d ⟨pyStrip isPySpace k⟩ ⟨pyStrip isQuote (pyStrip isPySpace v)⟩)
      (dictUpd d kv.1 kv.2) ps := by
  obtain ⟨hkeq, hkws, hvq, -⟩ := benignKV_facts hk_ne hk hv
  rw [List.foldl_cons]
  have hsplit : splitFirst '=' (' ' :: Spec.argPart kv) =
      some (' ' :: kv.1.data, squote :: kv.2.data ++ [squote]) := by
    rw [show ' ' :: Spec.argPart kv =
      (' ' :: kv.1.data) ++ '=' :: (squote :: kv.2.data ++ [squote]) by
        simp [Spec.argPart]]
    refine splitFirst_append ?_
    simp only [List.mem_cons, not_or]
    exact ⟨by decide, hkeq⟩
  have hd1 : List.dropWhile isPySpace kv.1.data = kv.1.data :=
    dropWhile_eq_self_of_head (fun c hc => hkws c (List.mem_of_mem_head? hc))
  have hd2 : List.dropWhile isPySpace kv.1.data.reverse = kv.1.data.reverse := by
    refine dropWhile_eq_self_of_head ?_
    intro c hc
    refine hkws c ?_
    have := List.mem_of_mem_head? hc
    rwa [List.mem_reverse] at this
  have hkstrip : pyStrip isPySpace (' ' :: kv.1.data) = kv.1.data := by
    unfold pyStrip
    rw [List.dropWhile_cons]
    simp only [show isPySpace ' ' = true by decide, if_true]
    rw [hd1, hd2, List.reverse_reverse]
  have hvstrip1 : pyStrip isPySpace (squote :: kv.2.data ++ [squote]) =
      squote :: kv.2.data ++ [squote] := by
    refine pyStrip_eq_self_of_ends ?_ ?_
    · intro c hc
      have hc' : some squote = some c := hc
      cases hc'
      decide
    · intro c hc
      rw [show squote :: kv.2.data ++ [squote] =
        (squote :: kv.2.data) ++ [squote] from rfl, List.getLast?_concat] at hc
      cases hc
      decide
  have hvstrip2 : pyStrip isQuote (squote :: kv.2.data ++ [squote]) = kv.2.data :=
    pyStrip_quotes hvq
  simp only [hsplit, hkstrip, hvstrip1, hvstrip2]

/-- One fold step of `Planner.parseArgs` over the first rendered part
(no leading space). -/
theorem parseArgs_step_first (d : List (String × String)) (kv : String × String)
    (ps : List (List Char))
    (hk_ne : kv.1.data ≠ [])
    (hk : ∀ c ∈ kv.1.data, Spec.goodKeyChar c = true)
    (hv : ∀ c ∈ kv.2.data, Spec.goodValChar c = true) :
    List.foldl
      (fun d arg =>
        match splitFirst '=' arg with
        | none => d
        | some (k, v) =>
          dictUpd d ⟨pyStrip isPySpace k⟩ ⟨pyStrip isQuote (pyStrip isPySpace v)⟩)
      d (Spec.argPart kv :: ps) =
    List.foldl
      (fun d arg =>
        match splitFirst '=' arg with
        | none => d
        | some (k, v) =>
          dictUpd d ⟨pyStrip isPySpace k⟩ ⟨pyStrip isQuote (pyStrip isPySpace v)⟩)
      (dictUpd d kv.1 kv.2) ps := by
  obtain ⟨hkeq, hkws, hvq, -⟩ := benignKV_facts hk_ne hk hv
  rw [List.foldl_cons]
  have hsplit : splitFirst '=' (Spec.argPart kv) =
      some (kv.1.data, squote :: kv.2.data ++ [squote]) := by
    rw [show Spec.argPart kv =
      kv.1.data ++ '=' :: (squote :: kv.2.data ++ [squote]) by simp [Spec.argPart]]
    exact splitFirst_append hkeq
  have hkstrip : pyStrip isPySpace kv.1.data = kv.1.data :=
    pyStrip_eq_self_of_all hkws
  have hvstrip1 : pyStrip isPySpace (squote :: kv.2.data ++ [squote]) =
      squote :: kv.2.data ++ [squote] := by
    refine pyStrip_eq_self_of_ends ?_ ?_
    · intro c hc
      have hc' : some squote = some c := hc
      cases hc'
      decide
    · intro c hc
      rw [show squote :: kv.2.data ++ [squote] =
        (squote :: kv.2.data) ++ [squote] from rfl, List.getLast?_concat] at hc
      cases hc
      decide
  have hvstrip2 : pyStrip isQuote (squote :: kv.2.data ++ [squote]) = kv.2.data :=
    pyStrip_quotes hvq
  simp only [hsplit, hkstrip, hvstrip1, hvstrip2]

/-- Folding the remaining (spaced) parts appends the remaining pairs. -/
theorem parseArgs_fold_rest : ∀ (rest : List (String × String))
    (d : List (String × String)),
    (∀ kv ∈ rest, kv.1.data ≠ [] ∧ (∀ c ∈ kv.1.data, Spec.goodKeyChar c = true) ∧
      (∀ c ∈ kv.2.data, Spec.goodValChar c = true)) →
    (rest.map Prod.fst).Nodup →
    (∀ kv ∈ rest, kv.1 ∉ d.map Prod.fst) →
    List.foldl
      (fun d arg =>
        match splitFirst '=' arg with
        | none => d
        | some (k, v) =>
          dictUpd d ⟨pyStrip isPySpace k⟩ ⟨pyStrip isQuote (pyStrip isPySpace v)⟩)
      d (rest.map (fun kv => ' ' :: Spec.argPart kv)) = d ++ rest := by
  intro rest
  induction rest with
  | nil => intro d _ _ _; simp
  | cons kv rest ih =>
    intro d hb hnd hfresh
    rw [List.map_cons] at hnd
    have hnd1 := List.nodup_cons.mp hnd
    obtain ⟨hk_ne, hk, hv⟩ := hb kv (by simp)
    rw [List.map_cons, parseArgs_step_spaced d kv _ hk_ne hk hv]
    rw [dictUpd_fresh kv.2 (hfresh kv (by simp))]
    have heta : d ++ [(kv.1, kv.2)] = d ++ [kv] := by simp
    have hfresh' : ∀ kv' ∈ rest, kv'.1 ∉ (d ++ [kv]).map Prod.fst := by
      intro kv' hkv'
      simp only [List.map_append, List.map_cons, List.map_nil, List.mem_append,
        List.mem_singleton, not_or]
      refine ⟨fun hc => hfresh kv' (by simp [hkv']) hc, ?_⟩
      intro hc
      exact hnd1.1 (hc ▸ List.mem_map_of_mem Prod.fst hkv')
    rw [heta, ih (d ++ [kv]) (fun kv' h => hb kv' (by simp [h])) hnd1.2 hfresh']
    simp

/-- Parsing the rendered benign argument list recovers the pairs. -/
theorem parseArgs_render {args : List (String × String)}
    (hargs : ∀ kv ∈ args, kv.1.data ≠ [] ∧ (∀ c ∈ kv.1.data, Spec.goodKeyChar c = true) ∧
      (∀ c ∈ kv.2.data, Spec.goodValChar c = true))
    (hnd : (args.map Prod.fst).Nodup) (hne : args ≠ []) :
    Planner.parseArgs (Spec.renderArgsChars args) = args := by
  obtain ⟨kv, rest, rfl⟩ := List.exists_cons_of_ne_nil hne
  have hcomma : ∀ p ∈ (kv :: rest).map Spec.argPart, ',' ∉ p := by
    intro p hp
    obtain ⟨kv', hkv', rfl⟩ := List.mem_map.mp hp
    obtain ⟨hk_ne, hk, hv⟩ := hargs kv' hkv'
    exact (benignKV_facts hk_ne hk hv).2.2.2
  have hsplit : pySplit ',' (Spec.renderArgsChars (kv :: rest)) =
      Spec.argPart kv :: (rest.map Spec.argPart).map (fun q => ' ' :: q) := by
    rw [Spec.renderArgsChars, pySplit_joinParts _ hcomma (by simp)]
    rfl
  rw [List.map_cons] at hnd
  have hnd1 := List.nodup_cons.mp hnd
  obtain ⟨hk_ne, hk, hv⟩ := hargs kv (by simp)
  have hfresh : ∀ kv' ∈ rest, kv'.1 ∉ ([kv] : List (String × String)).map Prod.fst := by
    intro kv' hkv'
    simp only [List.map_cons, List.map_nil, List.mem_singleton]
    intro hc
    exact hnd1.1 (hc ▸ List.mem_map_of_mem Prod.fst hkv')
  rw [Planner.parseArgs, hsplit]
  rw [show (rest.map Spec.argPart).map (fun q => ' ' :: q) =
    rest.map (fun kv => ' ' :: Spec.argPart kv) by rw [List.map_map]; rfl]
  rw [parseArgs_step_first [] kv _ hk_ne hk hv]
  rw [dictUpd_fresh kv.2 (by simp)]
  have heta : dictUpd [] kv.1 kv.2 = [kv] := by simp [dictUpd]
  rw [show ([] : List (String × String)) ++ [(kv.1, kv.2)] = [kv] by simp,
    parseArgs_fold_rest rest [kv] (fun kv' h => hargs kv' (by simp [h])) hnd1.2 hfresh]
  simp

/-- Unpacking the benign-task predicate. -/
theorem benignRT_unpack {t : Task} (h : Spec.benignRT t = true) :
    t.dependencies = [] ∧ (∀ c ∈ t.tool.data, Spec.goodToolChar c = true) ∧
    (∀ kv ∈ t.args, kv.1.data ≠ [] ∧ (∀ c ∈ kv.1.data, Spec.goodKeyChar c = true) ∧
      (∀ c ∈ kv.2.data, Spec.goodValChar c = true)) ∧
    (t.args.map Prod.fst).Nodup := by
  simp only [Spec.benignRT, Bool.and_eq_true, List.all_eq_true, List.isEmpty_iff,
    decide_eq_true_eq, Bool.not_eq_true', List.isEmpty_eq_false] at h
  obtain ⟨⟨⟨h1, h2⟩, h3⟩, h4⟩ := h
  exact ⟨h1, h2, fun kv hkv => ⟨(h3 kv hkv).1.1, (h3 kv hkv).1.2, (h3 kv hkv).2⟩, h4⟩

/-- Normal form of the rendered line for a task with no dependencies. -/
theorem renderLine_nf {t : Task} (hdeps : t.dependencies = []) :
    Spec.renderLine t = natDigits t.idx ++ '.' ::
      (' ' :: (t.tool.data ++ '(' :: (Spec.renderArgsChars t.args ++ [')']))) := by
  simp [Spec.renderLine, Spec.depsCharsOf, hdeps]

/-- Character constraints of the rendered tail after the index dot. -/
theorem renderTail_chars {t : Task}
    (htool : ∀ c ∈ t.tool.data, Spec.goodToolChar c = true)
    (hargs : ∀ kv ∈ t.args, kv.1.data ≠ [] ∧ (∀ c ∈ kv.1.data, Spec.goodKeyChar c = true) ∧
      (∀ c ∈ kv.2.data, Spec.goodValChar c = true)) :
    (∀ c ∈ t.tool.data, c ≠ '(' ∧ c ≠ ')' ∧ c ≠ '\n' ∧ isPySpace c = false) ∧
    (∀ c ∈ Spec.renderArgsChars t.args, c ≠ '(' ∧ c ≠ ')' ∧ c ≠ '\n') := by
  constructor
  · intro c hc
    obtain ⟨-, h2, h3, -, -, -, h7⟩ := goodToolChar_props (htool c hc)
    refine ⟨h2, h3, ?_, h7⟩
    intro hcn
    subst hcn
    exact absurd h7 (by decide)
  · intro c hc
    rcases mem_renderArgsChars hc with ⟨kv, hkv, hck | hck⟩ | hc' | hc' | hc' | hc'
    · obtain ⟨⟨-, h2, h3, -, -, -, h7⟩, -⟩ := goodKeyChar_props ((hargs kv hkv).2.1 c hck)
      refine ⟨h2, h3, ?_⟩
      intro hcn
      subst hcn
      exact absurd h7 (by decide)
    · obtain ⟨-, h2, h3, -, -, -, h7⟩ := goodValChar_props ((hargs kv hkv).2.2 c hck)
      exact ⟨h2, h3, h7⟩
    · subst hc'; exact ⟨by decide, by decide, by decide⟩
    · subst hc'; exact ⟨by decide, by decide, by decide⟩
    · subst hc'; exact ⟨by decide, by decide, by decide⟩
    · subst hc'; exact ⟨by decide, by decide, by decide⟩

/-- No newline occurs in the rendered benign line. -/
theorem renderLine_no_newline {t : Task} (h : Spec.benignRT t = true) :
    '\n' ∉ Spec.renderLine t := by
  obtain ⟨hdeps, htool, hargs, -⟩ := benignRT_unpack h
  obtain ⟨htoolc, hargsc⟩ := renderTail_chars htool hargs
  rw [renderLine_nf hdeps]
  simp only [List.mem_append, List.mem_cons, List.mem_singleton, not_or]
  refine ⟨?_, by decide, by decide, ?_, by decide, ?_, by decide⟩
  · intro hc
    exact absurd (natDigits_all_digits t.idx '\n' hc) (by decide)
  · intro hc
    exact (htoolc '\n' hc).2.2.1 rfl
  · intro hc
    exact (hargsc '\n' hc).2.2 rfl

/-- The rendered benign line survives the whitespace strip unchanged. -/
theorem renderLine_strip {t : Task} (h : Spec.benignRT t = true) :
    pyStrip isPySpace (Spec.renderLine t) = Spec.renderLine t := by
  obtain ⟨hdeps, -, -, -⟩ := benignRT_unpack h
  rw [renderLine_nf hdeps]
  obtain ⟨a, A', hA⟩ := List.exists_cons_of_ne_nil (natDigits_ne_nil t.idx)
  refine pyStrip_eq_self_of_ends ?_ ?_
  · intro c hc
    rw [hA, List.cons_append, List.head?_cons] at hc
    have hc' : some a = some c := hc
    cases hc'
    refine isDigit_not_pySpace (natDigits_all_digits t.idx a ?_)
    rw [hA]
    simp
  · intro c hc
    rw [show natDigits t.idx ++ '.' ::
        (' ' :: (t.tool.data ++ '(' :: (Spec.renderArgsChars t.args ++ [')']))) =
      (natDigits t.idx ++ '.' ::
        (' ' :: (t.tool.data ++ '(' :: Spec.renderArgsChars t.args))) ++ [')'] by
        simp] at hc
    rw [List.getLast?_concat] at hc
    cases hc
    decide

/-- `parseStage1` on the rendered benign line yields the task's index,
the text after the dot, and the line itself. -/
theorem stage1_render {t : Task} (h : Spec.benignRT t = true) :
    Planner.parseStage1 (Spec.renderLine t) =
      some (t.idx,
        ' ' :: (t.tool.data ++ '(' :: (Spec.renderArgsChars t.args ++ [')'])),
        Spec.renderLine t) := by
  obtain ⟨hdeps, -, -, -⟩ := benignRT_unpack h
  have hA_digit := natDigits_all_digits t.idx
  have hdot : ('.' : Char) ∉ natDigits t.idx := by
    intro hc
    exact absurd (hA_digit '.' hc) (by decide)
  rw [Planner.parseStage1, renderLine_strip h]
  rw [renderLine_nf hdeps]
  have htake : (natDigits t.idx ++ '.' ::
      (' ' :: (t.tool.data ++ '(' :: (Spec.renderArgsChars t.args ++ [')'])))).takeWhile
        Char.isDigit = natDigits t.idx :=
    takeWhile_append_of_all hA_digit (by decide)
  rw [htake]
  have hne : ((natDigits t.idx).isEmpty = true) = False := by
    simp [List.isEmpty_iff, natDigits_ne_nil t.idx]
  simp only [hne, if_false, List.drop_left, List.head?_cons, if_pos rfl,
    splitFirst_append hdot, digitsToNat_natDigits]
  rw [← renderLine_nf hdeps]
  simp

theorem matchDepsAt_nil : matchDepsAt [] = none := rfl

theorem matchDepsAt_ne {c : Char} {r : List Char} (h : c ≠ '(') :
    matchDepsAt (c :: r) = none := by
  have hpre : (depsLit.isPrefixOf (c :: r)) = false := by
    rw [depsLit]
    simp only [List.isPrefixOf, Bool.and_eq_false_iff]
    left
    simpa using Ne.symm h
  simp [matchDepsAt, hpre]

theorem findDeps_none_of : ∀ (l : List Char),
    (∀ l1 l2, l = l1 ++ l2 → matchDepsAt l2 = none) → findDeps l = none := by
  intro l
  induction l with
  | nil => intro _; rfl
  | cons x xs ih =>
    intro h
    rw [findDeps]
    rw [h [] (x :: xs) rfl]
    exact ih (fun l1 l2 heq => h (x :: l1) l2 (by rw [heq]; rfl))

theorem joinParts_cons (sep : List Char) (p : List Char) (ps : List (List Char)) :
    Spec.joinParts sep (p :: ps) =
      p ++ (match ps with | [] => [] | _ :: _ => sep ++ Spec.joinParts sep ps) := by
  cases ps <;> simp [Spec.joinParts]

/-- The `(deps: ...)` regex never fires on a rendered benign line: the
only `(` is the argument opener and what follows it cannot spell
`deps:`. -/
theorem clauseDeps_render {t : Task} (h : Spec.benignRT t = true) :
    clauseDeps (Spec.renderLine t) = [] := by
  obtain ⟨hdeps, htool, hargs, -⟩ := benignRT_unpack h
  obtain ⟨htoolc, hargsc⟩ := renderTail_chars htool hargs
  have hfind : findDeps (Spec.renderLine t) = none := by
    refine findDeps_none_of _ ?_
    intro l1 l2 heq
    rcases l2 with _ | ⟨c, r⟩
    · exact matchDepsAt_nil
    by_cases hc : c = '('
    swap
    · exact matchDepsAt_ne hc
    subst hc
    have hP : ('(' : Char) ∉ natDigits t.idx ++ '.' :: ' ' :: t.tool.data := by
      simp only [List.mem_append, List.mem_cons, not_or]
      refine ⟨?_, by decide, by decide, ?_⟩
      · intro hm
        exact absurd (natDigits_all_digits t.idx '(' hm) (by decide)
      · intro hm
        exact (htoolc '(' hm).1 rfl
    have hQ : ('(' : Char) ∉ Spec.renderArgsChars t.args ++ [')'] := by
      simp only [List.mem_append, List.mem_singleton, not_or]
      refine ⟨?_, by decide⟩
      intro hm
      exact (hargsc '(' hm).1 rfl
    have hform : Spec.renderLine t =
        (natDigits t.idx ++ '.' :: ' ' :: t.tool.data) ++
          '(' :: (Spec.renderArgsChars t.args ++ [')']) := by
      rw [renderLine_nf hdeps]
      simp
    have hr : r = Spec.renderArgsChars t.args ++ [')'] := by
      refine append_cons_unique _ l1 _ r hP hQ ?_
      rw [← hform, heq]
    subst hr
    have htail : (['d', 'e', 'p', 's', ':'].isPrefixOf
        (Spec.renderArgsChars t.args ++ [')'])) = false := by
      rcases hargs0 : t.args with _ | ⟨kv, rest⟩
      · rfl
      · obtain ⟨hk_ne, hk, -⟩ := hargs kv (by rw [hargs0]; simp)
        have hcolon : ':' ∉ kv.1.data :=
          fun hm => (goodKeyChar_props (hk _ hm)).2.2 rfl
        have heqw : '=' ∉ kv.1.data :=
          fun hm => (goodKeyChar_props (hk _ hm)).2.1 rfl
        have hshape : ∃ R, Spec.renderArgsChars t.args ++ [')'] =
            kv.1.data ++ '=' :: R := by
          rw [hargs0, Spec.renderArgsChars, List.map_cons, joinParts_cons]
          rcases rest with _ | ⟨q, qs⟩
          · exact ⟨squote :: kv.2.data ++ [squote] ++ [')'], by simp [Spec.argPart]⟩
          · exact ⟨squote :: kv.2.data ++ ([squote] ++ ([',', ' '] ++
              Spec.joinParts [',', ' '] (List.map Spec.argPart (q :: qs)) ++ [')'])),
              by simp [Spec.argPart]⟩
        obtain ⟨R, hR⟩ := hshape
        rw [hargs0] at hR
        rw [hR]
        exact not_depsTail_prefix _ _ hcolon heqw
    have hpre : (depsLit.isPrefixOf
        ('(' :: (Spec.renderArgsChars t.args ++ [')']))) = false := by
      rw [depsLit]
      simp only [List.isPrefixOf, Bool.and_eq_false_iff]
      right
      exact htail
    simp [matchDepsAt, hpre]
  rw [clauseDeps, hfind]

/-- Benign argument values never start with `$`, so the parser derives
no dependencies from them. -/
theorem argDollarDeps_render {args : List (String × String)}
    (h : ∀ kv ∈ args, ∀ c ∈ kv.2.data, Spec.goodValChar c = true) :
    Planner.argDollarDeps args = [] := by
  rw [Planner.argDollarDeps, List.filterMap_eq_nil_iff]
  intro kv hkv
  have : (kv.2.data.head? = some '$') = False := by
    simp only [eq_iff_iff, iff_false]
    intro hc
    exact (goodValChar_props (h kv hkv '$' (List.mem_of_mem_head? hc))).2.2.2.2.2.1 rfl
  simp [this]

/-- `parseRest` on the rendered benign line reconstructs the task. -/
theorem parseRest_render {t : Task} (h : Spec.benignRT t = true) :
    Planner.parseRest t.idx
      (' ' :: (t.tool.data ++ '(' :: (Spec.renderArgsChars t.args ++ [')'])))
      (Spec.renderLine t) = some t := by
  obtain ⟨hdeps, htool, hargs, hnd⟩ := benignRT_unpack h
  obtain ⟨htoolc, hargsc⟩ := renderTail_chars htool hargs
  have hclause := clauseDeps_render h
  have hdollar := argDollarDeps_render (fun kv hkv => (hargs kv hkv).2.2)
  have hXshape : t.tool.data ++ '(' :: (Spec.renderArgsChars t.args ++ [')']) =
      (t.tool.data ++ '(' :: Spec.renderArgsChars t.args) ++ [')'] := by simp
  have hcontent : pyStrip isPySpace
      (' ' :: (t.tool.data ++ '(' :: (Spec.renderArgsChars t.args ++ [')']))) =
      t.tool.data ++ '(' :: (Spec.renderArgsChars t.args ++ [')']) := by
    have hd1 : List.dropWhile isPySpace
        (t.tool.data ++ '(' :: (Spec.renderArgsChars t.args ++ [')'])) =
        t.tool.data ++ '(' :: (Spec.renderArgsChars t.args ++ [')']) := by
      refine dropWhile_eq_self_of_head ?_
      intro c hc
      rcases htd : t.tool.data with _ | ⟨a, T'⟩
      · rw [htd, List.nil_append, List.head?_cons] at hc
        have hc' : some '(' = some c := hc
        cases hc'
        decide
      · rw [htd, List.cons_append, List.head?_cons] at hc
        have hc' : some a = some c := hc
        cases hc'
        exact (htoolc c (by rw [htd]; simp)).2.2.2
    have hd2 : List.dropWhile isPySpace
        (t.tool.data ++ '(' :: (Spec.renderArgsChars t.args ++ [')'])).reverse =
        (t.tool.data ++ '(' :: (Spec.renderArgsChars t.args ++ [')'])).reverse := by
      refine dropWhile_eq_self_of_head ?_
      intro c hc
      rw [hXshape, List.reverse_append] at hc
      simp only [List.reverse_cons, List.reverse_nil, List.nil_append,
        List.singleton_append, List.head?_cons] at hc
      have hc' : some ')' = some c := hc
      cases hc'
      decide
    unfold pyStrip
    rw [List.dropWhile_cons]
    simp only [show isPySpace ' ' = true by decide, if_true]
    rw [hd1, hd2, List.reverse_reverse]
  have hmem1 : ('(' : Char) ∈
      t.tool.data ++ '(' :: (Spec.renderArgsChars t.args ++ [')']) := by simp
  have hmem2 : (')' : Char) ∈
      t.tool.data ++ '(' :: (Spec.renderArgsChars t.args ++ [')']) := by simp
  have htakeT : ∀ p : Char → Bool, (∀ c, c ≠ '(' → p c = true) → p '(' = false →
      (t.tool.data ++ '(' :: (Spec.renderArgsChars t.args ++ [')'])).takeWhile p =
        t.tool.data := by
    intro p hp hp2
    exact takeWhile_append_of_all (fun c hc => hp c (htoolc c hc).1) hp2
  have htake1 : (t.tool.data ++ '(' ::
      (Spec.renderArgsChars t.args ++ [')'])).takeWhile (fun c => c ≠ '(') =
      t.tool.data :=
    htakeT _ (fun c hc => by simpa using hc) (by decide)
  have htoolstrip : pyStrip isPySpace t.tool.data = t.tool.data :=
    pyStrip_eq_self_of_all (fun c hc => (htoolc c hc).2.2.2)
  have hfind : pyFindIdx '('
      (t.tool.data ++ '(' :: (Spec.renderArgsChars t.args ++ [')'])) =
      t.tool.data.length := by
    rw [pyFindIdx, htakeT _ (fun c hc => by simpa using hc) (by decide)]
  have hrev : (t.tool.data ++ '(' ::
      (Spec.renderArgsChars t.args ++ [')'])).reverse =
      ')' :: (t.tool.data ++ '(' :: Spec.renderArgsChars t.args).reverse := by
    rw [hXshape, List.reverse_append]
    simp
  have hrfind : pyRFindIdx ')'
      (t.tool.data ++ '(' :: (Spec.renderArgsChars t.args ++ [')'])) =
      t.tool.data.length + (Spec.renderArgsChars t.args).length + 1 := by
    rw [pyRFindIdx, hrev, pyFindIdx]
    rw [List.takeWhile_cons]
    simp only [show (decide ((')' : Char) ≠ ')')) = false by decide, if_false]
    simp [List.length_append]
    omega
  have hslice : pySlice
      (t.tool.data ++ '(' :: (Spec.renderArgsChars t.args ++ [')']))
      (t.tool.data.length + 1)
      (t.tool.data.length + (Spec.renderArgsChars t.args).length + 1) =
      Spec.renderArgsChars t.args := by
    rw [pySlice, hXshape]
    rw [List.take_left' (by simp [List.length_append]; omega)]
    rw [show t.tool.data ++ '(' :: Spec.renderArgsChars t.args =
      (t.tool.data ++ ['(']) ++ Spec.renderArgsChars t.args by simp]
    rw [List.drop_left' (by simp)]
  simp only [Planner.parseRest]
  rw [hcontent]
  rw [contains_eq_true_of_mem hmem1, contains_eq_true_of_mem hmem2]
  simp only [Bool.and_self, if_true, htake1, htoolstrip, hfind, hrfind, hslice]
  rcases hargs0 : t.args with _ | ⟨kv, rest⟩
  · rw [hclause]
    obtain ⟨i, tool, args, deps⟩ := t
    simp only at hdeps hargs0
    subst hdeps
    subst hargs0
    rfl
  · rw [hargs0] at hargs hnd hdollar
    have hMne : Spec.renderArgsChars (kv :: rest) ≠ [] := by
      rw [Spec.renderArgsChars, List.map_cons, joinParts_cons]
      obtain ⟨hk_ne, -, -⟩ := hargs kv (by simp)
      obtain ⟨a, k', hk'⟩ := List.exists_cons_of_ne_nil hk_ne
      simp [Spec.argPart, hk']
    have hMempty : (Spec.renderArgsChars (kv :: rest)).isEmpty = false := by
      simpa [List.isEmpty_iff] using hMne
    rw [hMempty]
    simp only [Bool.false_eq_true, if_false]
    rw [parseArgs_render hargs hnd (by simp)]
    rw [hdollar, hclause]
    obtain ⟨i, tool, args, deps⟩ := t
    simp only at hdeps hargs0 ⊢
    subst hdeps
    subst hargs0
    rfl

/-- Parsing the rendered benign line yields exactly the task. -/
theorem parseTasks_render {t : Task} (h : Spec.benignRT t = true) :
    Planner.parseTasks (Spec.renderTask t) = [t] := by
  rw [Planner.parseTasks]
  rw [show (Spec.renderTask t).data = Spec.renderLine t from rfl]
  rw [pySplit_eq_single (renderLine_no_newline h)]
  rw [Planner.parseGo]
  simp only [stage1_render h]
  rw [if_neg (by simp)]
  simp only [parseRest_render h]
  rfl

/-! Claim theorems. -/

/-- C1: in the scheduler's step semantics a task's tool is only invoked
from a `ready` worker, and every ready worker observed all of the task's
dependencies in the result map (ready tasks are submitted for immediate
execution, non-ready tasks wait on a poll that only promotes them once
all dependencies are present); the waiter's default polling interval
`retry_after` is 0.2 seconds (200 ms). -/
theorem C1_no_invoke_before_deps :
    (∀ (tools : Tools) (tasks : List Task) (seed : Results)
       (s s' : Scheduler.SState) (t : Task),
       Scheduler.Reachable tools (Scheduler.initState tasks seed) s →
       Scheduler.Step tools s (Scheduler.SLabel.invoke t) s' →
       Scheduler.depsReady t s.results = true) ∧
    Scheduler.retryAfterDefault = 1 / 5 := by
  constructor
  · intro tools tasks seed s s' t hreach hstep
    obtain ⟨_, _, h3, _, _, _⟩ := Scheduler.goodState_reachable hreach
    cases hstep with
    | invoke t pend proc w1 w2 res inv =>
      exact (h3 t (by simp)).2
  · norm_num [Scheduler.retryAfterDefault]

/-- Witness for C1 at a concrete one-task run. -/
theorem C1_no_invoke_before_deps_witness :
    Scheduler.depsReady ⟨1, "t", [], []⟩ ([] : Results) = true ∧
    Scheduler.retryAfterDefault = 1 / 5 := by
  have hstep1 : Scheduler.Step [("t", fun _ => Except.ok "r")]
      (Scheduler.initState [⟨1, "t", [], []⟩] [])
      (Scheduler.SLabel.submit ⟨1, "t", [], []⟩)
      ⟨[], [⟨1, "t", [], []⟩], [Scheduler.Worker.ready ⟨1, "t", [], []⟩], [], []⟩ :=
    Scheduler.Step.submit_ready _ _ _ _ _ _ rfl
  have hreach : Scheduler.Reachable [("t", fun _ => Except.ok "r")]
      (Scheduler.initState [⟨1, "t", [], []⟩] [])
      ⟨[], [⟨1, "t", [], []⟩], [Scheduler.Worker.ready ⟨1, "t", [], []⟩], [], []⟩ :=
    Scheduler.Reachable.tail _ _ _ _ (Scheduler.Reachable.refl _) hstep1
  have hstep2 : Scheduler.Step [("t", fun _ => Except.ok "r")]
      ⟨[], [⟨1, "t", [], []⟩], [Scheduler.Worker.ready ⟨1, "t", [], []⟩], [], []⟩
      (Scheduler.SLabel.invoke ⟨1, "t", [], []⟩)
      ⟨[], [⟨1, "t", [], []⟩], [Scheduler.Worker.done],
        insertRes [] 1 (Scheduler.runTask [("t", fun _ => Except.ok "r")] ⟨1, "t", [], []⟩ []),
        [⟨1, "t", [], []⟩]⟩ :=
    Scheduler.Step.invoke _ _ _ [] [] _ _
  exact ⟨C1_no_invoke_before_deps.1 _ _ _ _ _ _ hreach hstep2,
    C1_no_invoke_before_deps.2⟩

/-- C2 counterexample: the parser misses `$2` inside `"x $2"` (the value
does not start with `$`), keeps duplicates out of nothing but also does
not sort or deduplicate: the parsed dependency list is `[3, 1]` while the
spec-side extraction demands `[1, 2, 3]`. -/
theorem C2_counterexample :
    Planner.parseTasks "1. t(a=\"x $2\", b=\"$3\", c=\"$1\")" =
      [⟨1, "t", [("a", "x $2"), ("b", "$3"), ("c", "$1")], [3, 1]⟩] ∧
    Spec.specDependencies [("a", "x $2"), ("b", "$3"), ("c", "$1")] [] = [1, 2, 3] ∧
    (2 ∉ ([3, 1] : List Nat)) ∧ ([3, 1] : List Nat) ≠ [1, 2, 3] := by
  refine ⟨by decide, by decide, by decide, by decide⟩

/-- C2 (amended): a parsed task's dependency list contains every integer
of the explicit `(deps: [...])` clause, and every entry comes either from
that clause or from an argument value that starts with `$` via the first
`\$(\d+)` match; the list is not deduplicated, not sorted, and `$N`
occurrences that do not start the value (or use the `${N}` form) are not
extracted. -/
theorem C2_dependency_extraction :
    ∀ (idx : Nat) (p1 line : List Char) (t : Task),
    Planner.parseRest idx p1 line = some t →
    (∀ d ∈ clauseDeps line, d ∈ t.dependencies) ∧
    (∀ d ∈ t.dependencies, d ∈ clauseDeps line ∨
      ∃ kv ∈ t.args, kv.2.data.head? = some '$' ∧ firstDollarNum kv.2.data = some d) := by
  intro idx p1 line t h
  obtain ⟨-, hdeps⟩ := Planner.parseRest_inv h
  constructor
  · intro d hd
    rw [hdeps]
    exact List.mem_append_right _ hd
  · intro d hd
    rw [hdeps] at hd
    rcases List.mem_append.mp hd with hd | hd
    · exact Or.inr (Planner.mem_argDollarDeps.mp hd)
    · exact Or.inl hd

/-- Witness for C2 (amended) on a concrete line with an explicit clause. -/
theorem C2_dependency_extraction_witness :
    Planner.parseRest 1 (" t(a=\"x\") (deps: [5])".data)
        ("1. t(a=\"x\") (deps: [5])".data) =
      some ⟨1, "t", [("a", "x\") (deps: [5]")], [5]⟩ ∧
    5 ∈ (⟨1, "t", [("a", "x\") (deps: [5]")], [5]⟩ : Task).dependencies := by
  refine ⟨by decide, ?_⟩
  exact (C2_dependency_extraction 1 (" t(a=\"x\") (deps: [5])".data)
    ("1. t(a=\"x\") (deps: [5])".data) ⟨1, "t", [("a", "x\") (deps: [5]")], [5]⟩
    (by decide)).1 5 (by decide)

/-- C3 counterexample: the streaming parser emits a task from the
trailing line of the buffer even though no newline has arrived, and the
task is partially formed — the completed line carries `(deps: [2])` while
the emitted task has no dependencies and is never re-emitted. -/
theorem C3_counterexample :
    Planner.stream ["1. t(a=\"x\")"] = [⟨1, "t", [("a", "x")], []⟩] ∧
    ('\n' ∉ ("1. t(a=\"x\")" : String).data) ∧
    Planner.stream ["1. t(a=\"x\")", " (deps: [2])\n"] =
      [⟨1, "t", [("a", "x")], []⟩] ∧
    Planner.parseTasks "1. t(a=\"x\") (deps: [2])\n" =
      [⟨1, "t", [("a", "x\") (deps: [2]")], [2]⟩] ∧
    (⟨1, "t", [("a", "x")], []⟩ : Task) ≠ ⟨1, "t", [("a", "x\") (deps: [2]")], [2]⟩ := by
  refine ⟨by decide, by decide, by decide, by decide, by decide⟩

/-- C3 (amended): the streaming parser re-parses the whole buffer —
including the trailing, possibly incomplete line — after every chunk, so
a task may be yielded from a partial line; every yielded task comes from
parsing the concatenation of some chunk prefix, and a task index is
yielded at most once per stream even when its line reappears or grows. -/
theorem C3_stream_incremental :
    (∀ chunks : List String, ((Planner.stream chunks).map Task.idx).Nodup) ∧
    (∀ (chunks : List String) (t : Task), t ∈ Planner.stream chunks →
      ∃ ds es, chunks = ds ++ es ∧
        t ∈ Planner.parseGo (pySplit '\n' (ds.map String.data).flatten) []) := by
  constructor
  · intro chunks
    exact Planner.streamGo_nodup chunks [] [] [] (by simp) (by simp)
  · intro chunks t ht
    rcases Planner.streamGo_prov chunks [] [] [] t ht with h | ⟨ds, es, h1, h2⟩
    · cases h
    · exact ⟨ds, es, h1, by simpa using h2⟩

/-- Witness for C3 (amended) at a concrete two-chunk stream. -/
theorem C3_stream_incremental_witness :
    ((Planner.stream ["1. t(a=\"x\")", " (deps: [2])\n"]).map Task.idx).Nodup ∧
    ∃ ds es, (["1. t(a=\"x\")", " (deps: [2])\n"] : List String) = ds ++ es ∧
      (⟨1, "t", [("a", "x")], []⟩ : Task) ∈
        Planner.parseGo (pySplit '\n' (ds.map String.data).flatten) [] :=
  ⟨C3_stream_incremental.1 _, C3_stream_incremental.2 _ _ (by decide)⟩

/-- C4: when a tool invocation raises, the scheduler records
`ERROR: <message>` under the task's index; the task counts as completed
(its index is present in the result map, so dependents' checks succeed),
a waiting dependent can be promoted, and resolving its `$N` reference
substitutes the error string. -/
theorem C4_tool_failure_fail_soft :
    ∀ (tools : Tools) (t : Task) (res : Results) (msg : String),
    Scheduler.executeTask tools t res = Except.error msg →
    Scheduler.runTask tools t res = "ERROR: " ++ msg ∧
    (∀ pend proc w1 w2 inv,
      Scheduler.Step tools ⟨pend, proc, w1 ++ Scheduler.Worker.ready t :: w2, res, inv⟩
        (Scheduler.SLabel.invoke t)
        ⟨pend, proc, w1 ++ Scheduler.Worker.done :: w2,
          insertRes res t.idx ("ERROR: " ++ msg), inv ++ [t]⟩) ∧
    containsRes (insertRes res t.idx ("ERROR: " ++ msg)) t.idx = true ∧
    (∀ t' : Task, (∀ d ∈ t'.dependencies, d = t.idx ∨ containsRes res d = true) →
      Scheduler.depsReady t' (insertRes res t.idx ("ERROR: " ++ msg)) = true) ∧
    (∀ (t' : Task) pend proc w1 w2 inv,
      Scheduler.depsReady t' (insertRes res t.idx ("ERROR: " ++ msg)) = true →
      Scheduler.Step tools
        ⟨pend, proc, w1 ++ Scheduler.Worker.waiting t' :: w2,
          insertRes res t.idx ("ERROR: " ++ msg), inv⟩
        (Scheduler.SLabel.promote t')
        ⟨pend, proc, w1 ++ Scheduler.Worker.ready t' :: w2,
          insertRes res t.idx ("ERROR: " ++ msg), inv⟩) ∧
    Scheduler.resolveArg ⟨'$' :: natDigits t.idx⟩
        (insertRes res t.idx ("ERROR: " ++ msg)) = "ERROR: " ++ msg := by
  intro tools t res msg h
  have hrun : Scheduler.runTask tools t res = "ERROR: " ++ msg := by
    simp [Scheduler.runTask, h]
  refine ⟨hrun, ?_, containsRes_insert_self res t.idx _, ?_, ?_, ?_⟩
  · intro pend proc w1 w2 inv
    have hstep := @Scheduler.Step.invoke tools t pend proc w1 w2 res inv
    rwa [hrun] at hstep
  · intro t' hd
    simp only [Scheduler.depsReady, List.all_eq_true]
    intro d hdm
    rcases hd d hdm with rfl | hc
    · exact containsRes_insert_self res t.idx _
    · exact containsRes_insert_of_containsRes _ _ hc
  · intro t' pend proc w1 w2 inv hready
    exact Scheduler.Step.promote t' pend proc w1 w2 _ inv hready
  · have : lookupRes (insertRes res t.idx ("ERROR: " ++ msg)) t.idx =
        some ("ERROR: " ++ msg) := lookupRes_insert_self res t.idx _
    simp only [Scheduler.resolveArg]
    rw [Scheduler.resolveChars_dollar _ t.idx this]

/-- Witness for C4 with a concretely raising tool. -/
theorem C4_tool_failure_fail_soft_witness :
    Scheduler.runTask [("boom", fun _ => Except.error "kaboom")] ⟨1, "boom", [], []⟩ [] =
      "ERROR: " ++ "kaboom" ∧
    containsRes (insertRes [] 1 ("ERROR: " ++ "kaboom")) 1 = true ∧
    Scheduler.resolveArg ⟨'$' :: natDigits 1⟩ (insertRes [] 1 ("ERROR: " ++ "kaboom")) =
      "ERROR: " ++ "kaboom" := by
  have h := C4_tool_failure_fail_soft [("boom", fun _ => Except.error "kaboom")]
    ⟨1, "boom", [], []⟩ [] "kaboom" rfl
  exact ⟨h.1, h.2.2.1, h.2.2.2.2.2⟩

/-- C5 counterexample: with the result map seeded with an entry for index
1, the scheduler still dispatches and executes task 1 and overwrites the
seeded entry (`"old"` becomes `"new"`), contradicting the claimed no-op. -/
theorem C5_counterexample :
    Scheduler.Reachable [("t", fun _ => Except.ok "new")]
      (Scheduler.initState [⟨1, "t", [], []⟩]
        (Scheduler.getTaskResults [⟨some 1, "old"⟩]))
      ⟨[], [⟨1, "t", [], []⟩], [Scheduler.Worker.done], [(1, "new")], [⟨1, "t", [], []⟩]⟩ ∧
    Scheduler.finished
      ⟨[], [⟨1, "t", [], []⟩], [Scheduler.Worker.done], [(1, "new")], [⟨1, "t", [], []⟩]⟩ ∧
    lookupRes (Scheduler.getTaskResults [⟨some 1, "old"⟩]) 1 = some "old" ∧
    lookupRes [(1, "new")] 1 = some "new" ∧ ("old" : String) ≠ "new" ∧
    (⟨1, "t", [], []⟩ : Task) ∈
      Scheduler.SState.invoked
        ⟨[], [⟨1, "t", [], []⟩], [Scheduler.Worker.done], [(1, "new")], [⟨1, "t", [], []⟩]⟩ := by
  refine ⟨?_, ⟨rfl, ?_⟩, rfl, rfl, by decide, by simp⟩
  · have hstep1 : Scheduler.Step [("t", fun _ => Except.ok "new")]
        (Scheduler.initState [⟨1, "t", [], []⟩]
          (Scheduler.getTaskResults [⟨some 1, "old"⟩]))
        (Scheduler.SLabel.submit ⟨1, "t", [], []⟩)
        ⟨[], [⟨1, "t", [], []⟩], [Scheduler.Worker.ready ⟨1, "t", [], []⟩],
          Scheduler.getTaskResults [⟨some 1, "old"⟩], []⟩ :=
      Scheduler.Step.submit_ready _ _ _ _ _ _ rfl
    have hstep2 : Scheduler.Step [("t", fun _ => Except.ok "new")]
        ⟨[], [⟨1, "t", [], []⟩], [Scheduler.Worker.ready ⟨1, "t", [], []⟩],
          Scheduler.getTaskResults [⟨some 1, "old"⟩], []⟩
        (Scheduler.SLabel.invoke ⟨1, "t", [], []⟩)
        ⟨[], [⟨1, "t", [], []⟩], [Scheduler.Worker.done], [(1, "new")], [⟨1, "t", [], []⟩]⟩ :=
      Scheduler.Step.invoke _ _ _ [] [] _ _
    exact Scheduler.Reachable.tail _ _ _ _
      (Scheduler.Reachable.tail _ _ _ _ (Scheduler.Reachable.refl _) hstep1) hstep2
  · intro w hw
    simpa using hw

/-- C5 (amended): the scheduler never skips a task because its index is
already present in the seeded result map: in every finished run every
input task has been dispatched and executed, and executing it overwrites
any seeded entry under its index. -/
theorem C5_no_skip_of_seeded :
    ∀ (tools : Tools) (tasks : List Task) (seed : Results) (s : Scheduler.SState),
    Scheduler.Reachable tools (Scheduler.initState tasks seed) s →
    Scheduler.finished s → ∀ t ∈ tasks, t ∈ s.invoked :=
  fun _ _ _ _ h hf => Scheduler.invoked_of_finished h hf

/-- Witness for C5 (amended) on the concrete seeded one-task run. -/
theorem C5_no_skip_of_seeded_witness :
    (⟨1, "t", [], []⟩ : Task) ∈
      Scheduler.SState.invoked
        ⟨[], [⟨1, "t", [], []⟩], [Scheduler.Worker.done], [(1, "new")],
          [⟨1, "t", [], []⟩]⟩ := by
  have hstep1 : Scheduler.Step [("t", fun _ => Except.ok "new")]
      (Scheduler.initState [⟨1, "t", [], []⟩]
        (Scheduler.getTaskResults [⟨some 1, "old"⟩]))
      (Scheduler.SLabel.submit ⟨1, "t", [], []⟩)
      ⟨[], [⟨1, "t", [], []⟩], [Scheduler.Worker.ready ⟨1, "t", [], []⟩],
        Scheduler.getTaskResults [⟨some 1, "old"⟩], []⟩ :=
    Scheduler.Step.submit_ready _ _ _ _ _ _ rfl
  have hstep2 : Scheduler.Step [("t", fun _ => Except.ok "new")]
      ⟨[], [⟨1, "t", [], []⟩], [Scheduler.Worker.ready ⟨1, "t", [], []⟩],
        Scheduler.getTaskResults [⟨some 1, "old"⟩], []⟩
      (Scheduler.SLabel.invoke ⟨1, "t", [], []⟩)
      ⟨[], [⟨1, "t", [], []⟩], [Scheduler.Worker.done], [(1, "new")], [⟨1, "t", [], []⟩]⟩ :=
    Scheduler.Step.invoke _ _ _ [] [] _ _
  have hreach := Scheduler.Reachable.tail _ _ _ _
    (Scheduler.Reachable.tail _ _ _ _ (Scheduler.Reachable.refl _) hstep1) hstep2
  exact C5_no_skip_of_seeded _ _ _ _ hreach ⟨rfl, fun w hw => by simpa using hw⟩
    ⟨1, "t", [], []⟩ (by simp)

/-- C6 counterexample: when the planner hands the scheduler task 2 before
task 1 (legal, since yield order is first-appearance order), the emitted
message sequence is `[2, 1]` — task input order, not sorted by `idx`. -/
theorem C6_counterexample :
    Scheduler.Reachable [("t", fun _ => Except.ok "r")]
      (Scheduler.initState [⟨2, "t", [], []⟩, ⟨1, "t", [], []⟩] [])
      ⟨[], [⟨2, "t", [], []⟩, ⟨1, "t", [], []⟩],
        [Scheduler.Worker.done, Scheduler.Worker.done], [(2, "r"), (1, "r")],
        [⟨2, "t", [], []⟩, ⟨1, "t", [], []⟩]⟩ ∧
    Scheduler.finished
      ⟨[], [⟨2, "t", [], []⟩, ⟨1, "t", [], []⟩],
        [Scheduler.Worker.done, Scheduler.Worker.done], [(2, "r"), (1, "r")],
        [⟨2, "t", [], []⟩, ⟨1, "t", [], []⟩]⟩ ∧
    (Scheduler.emitMessages
      ⟨[], [⟨2, "t", [], []⟩, ⟨1, "t", [], []⟩],
        [Scheduler.Worker.done, Scheduler.Worker.done], [(2, "r"), (1, "r")],
        [⟨2, "t", [], []⟩, ⟨1, "t", [], []⟩]⟩).map Scheduler.FMessage.idx = [2, 1] ∧
    ¬ ([2, 1] : List Nat).Pairwise (· ≤ ·) := by
  refine ⟨?_, ⟨rfl, ?_⟩, by decide, by decide⟩
  · have hstep1 : Scheduler.Step [("t", fun _ => Except.ok "r")]
        (Scheduler.initState [⟨2, "t", [], []⟩, ⟨1, "t", [], []⟩] [])
        (Scheduler.SLabel.submit ⟨2, "t", [], []⟩)
        ⟨[⟨1, "t", [], []⟩], [⟨2, "t", [], []⟩],
          [Scheduler.Worker.ready ⟨2, "t", [], []⟩], [], []⟩ :=
      Scheduler.Step.submit_ready _ _ _ _ _ _ rfl
    have hstep2 : Scheduler.Step [("t", fun _ => Except.ok "r")]
        ⟨[⟨1, "t", [], []⟩], [⟨2, "t", [], []⟩],
          [Scheduler.Worker.ready ⟨2, "t", [], []⟩], [], []⟩
        (Scheduler.SLabel.submit ⟨1, "t", [], []⟩)
        ⟨[], [⟨2, "t", [], []⟩, ⟨1, "t", [], []⟩],
          [Scheduler.Worker.ready ⟨2, "t", [], []⟩,
            Scheduler.Worker.ready ⟨1, "t", [], []⟩], [], []⟩ :=
      Scheduler.Step.submit_ready _ _ _ _ _ _ rfl
    have hstep3 : Scheduler.Step [("t", fun _ => Except.ok "r")]
        ⟨[], [⟨2, "t", [], []⟩, ⟨1, "t", [], []⟩],
          [Scheduler.Worker.ready ⟨2, "t", [], []⟩,
            Scheduler.Worker.ready ⟨1, "t", [], []⟩], [], []⟩
        (Scheduler.SLabel.invoke ⟨2, "t", [], []⟩)
        ⟨[], [⟨2, "t", [], []⟩, ⟨1, "t", [], []⟩],
          [Scheduler.Worker.done, Scheduler.Worker.ready ⟨1, "t", [], []⟩],
          [(2, "r")], [⟨2, "t", [], []⟩]⟩ :=
      Scheduler.Step.invoke _ _ _ [] [Scheduler.Worker.ready ⟨1, "t", [], []⟩] _ _
    have hstep4 : Scheduler.Step [("t", fun _ => Except.ok "r")]
        ⟨[], [⟨2, "t", [], []⟩, ⟨1, "t", [], []⟩],
          [Scheduler.Worker.done, Scheduler.Worker.ready ⟨1, "t", [], []⟩],
          [(2, "r")], [⟨2, "t", [], []⟩]⟩
        (Scheduler.SLabel.invoke ⟨1, "t", [], []⟩)
        ⟨[], [⟨2, "t", [], []⟩, ⟨1, "t", [], []⟩],
          [Scheduler.Worker.done, Scheduler.Worker.done], [(2, "r"), (1, "r")],
          [⟨2, "t", [], []⟩, ⟨1, "t", [], []⟩]⟩ :=
      Scheduler.Step.invoke _ _ _ [Scheduler.Worker.done] [] _ _
    exact Scheduler.Reachable.tail _ _ _ _
      (Scheduler.Reachable.tail _ _ _ _
        (Scheduler.Reachable.tail _ _ _ _
          (Scheduler.Reachable.tail _ _ _ _ (Scheduler.Reachable.refl _) hstep1)
          hstep2) hstep3) hstep4
  · intro w hw
    rcases List.mem_cons.mp hw with rfl | hw
    · rfl
    · simpa using hw

/-- C6 (amended): the emitted message sequence follows the task input
order (its indices form a sublist of the input indices), independent of
completion order; it is sorted by `idx` whenever the tasks arrive in
strictly ascending `idx` order. -/
theorem C6_output_order :
    ∀ (tools : Tools) (tasks : List Task) (seed : Results) (s : Scheduler.SState),
    Scheduler.Reachable tools (Scheduler.initState tasks seed) s →
    Scheduler.finished s →
    ((Scheduler.emitMessages s).map Scheduler.FMessage.idx).Sublist
      (tasks.map Task.idx) ∧
    ((tasks.map Task.idx).Pairwise (· < ·) →
      ((Scheduler.emitMessages s).map Scheduler.FMessage.idx).Pairwise (· < ·)) := by
  intro tools tasks seed s hreach hfin
  have hp := Scheduler.processed_of_finished hreach hfin
  have hsub : ((Scheduler.emitMessages s).map Scheduler.FMessage.idx).Sublist
      (tasks.map Task.idx) := by
    unfold Scheduler.emitMessages
    rw [hp]
    exact Scheduler.emit_idx_sublist s.results tasks
  exact ⟨hsub, fun hpair => hpair.sublist hsub⟩

/-- Witness for C6 (amended) at a concrete ascending two-task run. -/
theorem C6_output_order_witness :
    ((Scheduler.emitMessages
        ⟨[], [⟨1, "t", [], []⟩, ⟨2, "t", [], []⟩],
          [Scheduler.Worker.done, Scheduler.Worker.done], [(1, "r"), (2, "r")],
          [⟨1, "t", [], []⟩, ⟨2, "t", [], []⟩]⟩).map Scheduler.FMessage.idx).Sublist
      (([⟨1, "t", [], []⟩, ⟨2, "t", [], []⟩] : List Task).map Task.idx) ∧
    ((([⟨1, "t", [], []⟩, ⟨2, "t", [], []⟩] : List Task).map Task.idx).Pairwise (· < ·) →
      ((Scheduler.emitMessages
        ⟨[], [⟨1, "t", [], []⟩, ⟨2, "t", [], []⟩],
          [Scheduler.Worker.done, Scheduler.Worker.done], [(1, "r"), (2, "r")],
          [⟨1, "t", [], []⟩, ⟨2, "t", [], []⟩]⟩).map Scheduler.FMessage.idx).Pairwise
        (· < ·)) := by
  have hstep1 : Scheduler.Step [("t", fun _ => Except.ok "r")]
      (Scheduler.initState [⟨1, "t", [], []⟩, ⟨2, "t", [], []⟩] [])
      (Scheduler.SLabel.submit ⟨1, "t", [], []⟩)
      ⟨[⟨2, "t", [], []⟩], [⟨1, "t", [], []⟩],
        [Scheduler.Worker.ready ⟨1, "t", [], []⟩], [], []⟩ :=
    Scheduler.Step.submit_ready _ _ _ _ _ _ rfl
  have hstep2 : Scheduler.Step [("t", fun _ => Except.ok "r")]
      ⟨[⟨2, "t", [], []⟩], [⟨1, "t", [], []⟩],
        [Scheduler.Worker.ready ⟨1, "t", [], []⟩], [], []⟩
      (Scheduler.SLabel.submit ⟨2, "t", [], []⟩)
      ⟨[], [⟨1, "t", [], []⟩, ⟨2, "t", [], []⟩],
        [Scheduler.Worker.ready ⟨1, "t", [], []⟩,
          Scheduler.Worker.ready ⟨2, "t", [], []⟩], [], []⟩ :=
    Scheduler.Step.submit_ready _ _ _ _ _ _ rfl
  have hstep3 : Scheduler.Step [("t", fun _ => Except.ok "r")]
      ⟨[], [⟨1, "t", [], []⟩, ⟨2, "t", [], []⟩],
        [Scheduler.Worker.ready ⟨1, "t", [], []⟩,
          Scheduler.Worker.ready ⟨2, "t", [], []⟩], [], []⟩
      (Scheduler.SLabel.invoke ⟨1, "t", [], []⟩)
      ⟨[], [⟨1, "t", [], []⟩, ⟨2, "t", [], []⟩],
        [Scheduler.Worker.done, Scheduler.Worker.ready ⟨2, "t", [], []⟩],
        [(1, "r")], [⟨1, "t", [], []⟩]⟩ :=
    Scheduler.Step.invoke _ _ _ [] [Scheduler.Worker.ready ⟨2, "t", [], []⟩] _ _
  have hstep4 : Scheduler.Step [("t", fun _ => Except.ok "r")]
      ⟨[], [⟨1, "t", [], []⟩, ⟨2, "t", [], []⟩],
        [Scheduler.Worker.done, Scheduler.Worker.ready ⟨2, "t", [], []⟩],
        [(1, "r")], [⟨1, "t", [], []⟩]⟩
      (Scheduler.SLabel.invoke ⟨2, "t", [], []⟩)
      ⟨[], [⟨1, "t", [], []⟩, ⟨2, "t", [], []⟩],
        [Scheduler.Worker.done, Scheduler.Worker.done], [(1, "r"), (2, "r")],
        [⟨1, "t", [], []⟩, ⟨2, "t", [], []⟩]⟩ :=
    Scheduler.Step.invoke _ _ _ [Scheduler.Worker.done] [] _ _
  have hreach := Scheduler.Reachable.tail _ _ _ _
    (Scheduler.Reachable.tail _ _ _ _
      (Scheduler.Reachable.tail _ _ _ _
        (Scheduler.Reachable.tail _ _ _ _ (Scheduler.Reachable.refl _) hstep1)
        hstep2) hstep3) hstep4
  refine C6_output_order _ _ _ _ hreach ⟨rfl, ?_⟩
  intro w hw
  rcases List.mem_cons.mp hw with rfl | hw
  · rfl
  · simpa using hw

/-- C7 counterexample: a `join` task is not filtered: it is dispatched,
its (failing) lookup records `ERROR: 'join'`, and a tool message for it
IS emitted in the scheduler's output. -/
theorem C7_counterexample :
    Scheduler.Reachable [("t", fun _ => Except.ok "r")]
      (Scheduler.initState [⟨1, "join", [("x", "y")], []⟩] [])
      ⟨[], [⟨1, "join", [("x", "y")], []⟩], [Scheduler.Worker.done],
        [(1, Scheduler.keyErr "join")], [⟨1, "join", [("x", "y")], []⟩]⟩ ∧
    Scheduler.finished
      ⟨[], [⟨1, "join", [("x", "y")], []⟩], [Scheduler.Worker.done],
        [(1, Scheduler.keyErr "join")], [⟨1, "join", [("x", "y")], []⟩]⟩ ∧
    Scheduler.emitMessages
      ⟨[], [⟨1, "join", [("x", "y")], []⟩], [Scheduler.Worker.done],
        [(1, Scheduler.keyErr "join")], [⟨1, "join", [("x", "y")], []⟩]⟩ =
      [⟨"join", Scheduler.keyErr "join", 1, [("x", "y")]⟩] ∧
    Scheduler.emitMessages
      ⟨[], [⟨1, "join", [("x", "y")], []⟩], [Scheduler.Worker.done],
        [(1, Scheduler.keyErr "join")], [⟨1, "join", [("x", "y")], []⟩]⟩ ≠ [] := by
  refine ⟨?_, ⟨rfl, ?_⟩, by decide, by decide⟩
  · have hstep1 : Scheduler.Step [("t", fun _ => Except.ok "r")]
        (Scheduler.initState [⟨1, "join", [("x", "y")], []⟩] [])
        (Scheduler.SLabel.submit ⟨1, "join", [("x", "y")], []⟩)
        ⟨[], [⟨1, "join", [("x", "y")], []⟩],
          [Scheduler.Worker.ready ⟨1, "join", [("x", "y")], []⟩], [], []⟩ :=
      Scheduler.Step.submit_ready _ _ _ _ _ _ rfl
    have hstep2 : Scheduler.Step [("t", fun _ => Except.ok "r")]
        ⟨[], [⟨1, "join", [("x", "y")], []⟩],
          [Scheduler.Worker.ready ⟨1, "join", [("x", "y")], []⟩], [], []⟩
        (Scheduler.SLabel.invoke ⟨1, "join", [("x", "y")], []⟩)
        ⟨[], [⟨1, "join", [("x", "y")], []⟩], [Scheduler.Worker.done],
          [(1, Scheduler.keyErr "join")], [⟨1, "join", [("x", "y")], []⟩]⟩ :=
      Scheduler.Step.invoke _ _ _ [] [] _ _
    exact Scheduler.Reachable.tail _ _ _ _
      (Scheduler.Reachable.tail _ _ _ _ (Scheduler.Reachable.refl _) hstep1) hstep2
  · intro w hw
    simpa using hw

/-- C7 (amended): `join` tasks are not filtered out before dispatch: in
every finished run with unique task indices, a `join` task (with `join`
unregistered) is dispatched like any other task; its invocation looks
the name up, fails without running any registered tool, records
`ERROR: 'join'` under its index, and a tool message carrying that error
IS emitted for it. -/
theorem C7_join_not_filtered :
    ∀ (tools : Tools) (tasks : List Task) (seed : Results) (s : Scheduler.SState)
      (t : Task),
    Scheduler.Reachable tools (Scheduler.initState tasks seed) s →
    Scheduler.finished s → (tasks.map Task.idx).Nodup → t ∈ tasks →
    t.tool = "join" → lookupTool tools "join" = none →
    (∀ res, Scheduler.runTask tools t res = Scheduler.keyErr "join") ∧
    t ∈ s.invoked ∧
    lookupRes s.results t.idx = some (Scheduler.keyErr "join") ∧
    (⟨"join", Scheduler.keyErr "join", t.idx, t.args⟩ : Scheduler.FMessage) ∈
      Scheduler.emitMessages s := by
  intro tools tasks seed s t hreach hfin hnd ht htool hjoin
  have hlt : lookupTool tools t.tool = none := by rwa [htool]
  have hrun : ∀ res, Scheduler.runTask tools t res = Scheduler.keyErr "join" := by
    intro res
    rw [Scheduler.runTask_of_unregistered hlt, htool]
  have hinv : t ∈ s.invoked := Scheduler.invoked_of_finished hreach hfin t ht
  obtain ⟨-, -, -, -, -, h6⟩ := Scheduler.goodState_reachable hreach
  have hlook : lookupRes s.results t.idx = some (Scheduler.keyErr t.tool) :=
    h6 hnd t hinv hlt
  rw [htool] at hlook
  refine ⟨hrun, hinv, hlook, ?_⟩
  unfold Scheduler.emitMessages
  rw [Scheduler.processed_of_finished hreach hfin]
  refine List.mem_filterMap.mpr ⟨t, ht, ?_⟩
  rw [hlook, htool]

/-- Witness for C7 (amended) on the concrete single-join-task run. -/
theorem C7_join_not_filtered_witness :
    (∀ res, Scheduler.runTask [("t", fun _ => Except.ok "r")]
        ⟨1, "join", [("x", "y")], []⟩ res = Scheduler.keyErr "join") ∧
    (⟨1, "join", [("x", "y")], []⟩ : Task) ∈
      Scheduler.SState.invoked
        ⟨[], [⟨1, "join", [("x", "y")], []⟩], [Scheduler.Worker.done],
          [(1, Scheduler.keyErr "join")], [⟨1, "join", [("x", "y")], []⟩]⟩ ∧
    lookupRes [(1, Scheduler.keyErr "join")] 1 = some (Scheduler.keyErr "join") ∧
    (⟨"join", Scheduler.keyErr "join", 1, [("x", "y")]⟩ : Scheduler.FMessage) ∈
      Scheduler.emitMessages
        ⟨[], [⟨1, "join", [("x", "y")], []⟩], [Scheduler.Worker.done],
          [(1, Scheduler.keyErr "join")], [⟨1, "join", [("x", "y")], []⟩]⟩ := by
  have hstep1 : Scheduler.Step [("t", fun _ => Except.ok "r")]
      (Scheduler.initState [⟨1, "join", [("x", "y")], []⟩] [])
      (Scheduler.SLabel.submit ⟨1, "join", [("x", "y")], []⟩)
      ⟨[], [⟨1, "join", [("x", "y")], []⟩],
        [Scheduler.Worker.ready ⟨1, "join", [("x", "y")], []⟩], [], []⟩ :=
    Scheduler.Step.submit_ready _ _ _ _ _ _ rfl
  have hstep2 : Scheduler.Step [("t", fun _ => Except.ok "r")]
      ⟨[], [⟨1, "join", [("x", "y")], []⟩],
        [Scheduler.Worker.ready ⟨1, "join", [("x", "y")], []⟩], [], []⟩
      (Scheduler.SLabel.invoke ⟨1, "join", [("x", "y")], []⟩)
      ⟨[], [⟨1, "join", [("x", "y")], []⟩], [Scheduler.Worker.done],
        [(1, Scheduler.keyErr "join")], [⟨1, "join", [("x", "y")], []⟩]⟩ :=
    Scheduler.Step.invoke _ _ _ [] [] _ _
  have hreach := Scheduler.Reachable.tail _ _ _ _
    (Scheduler.Reachable.tail _ _ _ _ (Scheduler.Reachable.refl _) hstep1) hstep2
  exact C7_join_not_filtered _ _ _ _ _ hreach
    ⟨rfl, fun w hw => by simpa using hw⟩ (by decide) (by simp) rfl rfl

/-- C8 counterexample: the package `Planner` parser performs no registry
check — it emits a task for the unknown tool `bogus` — while the flat
parser drops the same line. -/
theorem C8_counterexample :
    Planner.parseTasks "1. bogus(a=\"b\")" = [⟨1, "bogus", [("a", "b")], []⟩] ∧
    FlatParser.parseTasks ["real_tool"] "1. bogus(a=\"b\")" = [] ∧
    ("bogus" ∉ (["real_tool"] : List String)) ∧ ("bogus" : String) ≠ "join" := by
  refine ⟨by decide, by decide, by decide, by decide⟩

/-- C8 (amended): only the flat parser enforces the registry — every
task it emits has a registered tool name or the sentinel `join`; the
package parser drops structurally malformed lines (each emitted task
passes the index-prefix and parenthesis stages of some line) but emits
tasks for arbitrary tool names. -/
theorem C8_unknown_tool_handling :
    (∀ (reg : List String) (lines : List (List Char)) (seen : List Nat) (t : Task),
      t ∈ FlatParser.parseGo reg lines seen →
      reg.contains t.tool = true ∨ t.tool = "join") ∧
    (∀ (content : String) (t : Task), t ∈ Planner.parseTasks content →
      ∃ l ∈ pySplit '\n' content.data, ∃ p1 sline,
        Planner.parseStage1 l = some (t.idx, p1, sline) ∧
        Planner.parseRest t.idx p1 sline = some t) :=
  ⟨FlatParser.parseGo_tools, fun _ t ht => Planner.parseGo_prov _ [] t ht⟩

/-- Witness for C8 (amended) on concrete lines. -/
theorem C8_unknown_tool_handling_witness :
    (["t"] : List String).contains
        (Task.tool ⟨1, "join", [], []⟩) = true ∨
      Task.tool ⟨1, "join", [], []⟩ = "join" :=
  C8_unknown_tool_handling.1 ["t"] ["1. join()".data] [] _ (by decide)

/-- C9 counterexample: on a rendered line carrying a `(deps: [...])`
clause, the package parser takes the argument text up to the *last*
closing parenthesis, so the clause text leaks into the final argument
value: `content` parses back as `b') (deps: [1`, not `b`. -/
theorem C9_counterexample :
    Planner.parseTasks
        (Spec.renderTask ⟨1, "write", [("path", "a"), ("content", "b")], [1, 2]⟩) =
      [⟨1, "write",
        [("path", "a"), ("content", "b" ++ squoteStr ++ ") (deps: [1")], [1, 2]⟩] ∧
    ("b" ++ squoteStr ++ ") (deps: [1" : String) ≠ "b" := by
  refine ⟨by decide, by decide⟩

/-- C9 (amended): for a task whose rendered line carries no deps clause
(no dependencies) and whose tool, keys and values avoid the separator
characters (commas, quotes, parentheses, `$`, newlines; keys nonempty,
distinct, without `=`/`:`/whitespace), parsing the rendered wire-format
line yields exactly the written key/value pairs with the quotes
stripped, and re-rendering reproduces the same canonical line; when a
deps clause is rendered the round trip fails as in the counterexample. -/
theorem C9_round_trip :
    ∀ t : Task, Spec.benignRT t = true →
    Planner.parseTasks (Spec.renderTask t) = [t] ∧
    ∀ t' ∈ Planner.parseTasks (Spec.renderTask t),
      Spec.renderTask t' = Spec.renderTask t := by
  intro t h
  have h1 := parseTasks_render h
  refine ⟨h1, ?_⟩
  intro t' ht'
  rw [h1, List.mem_singleton] at ht'
  rw [ht']

/-- Witness for C9 (amended) on a concrete benign task. -/
theorem C9_round_trip_witness :
    Planner.parseTasks
        (Spec.renderTask ⟨3, "gen", [("desc", "x y"), ("k", "")], []⟩) =
      [⟨3, "gen", [("desc", "x y"), ("k", "")], []⟩] ∧
    ∀ t' ∈ Planner.parseTasks
        (Spec.renderTask ⟨3, "gen", [("desc", "x y"), ("k", "")], []⟩),
      Spec.renderTask t' =
        Spec.renderTask ⟨3, "gen", [("desc", "x y"), ("k", "")], []⟩ :=
  C9_round_trip ⟨3, "gen", [("desc", "x y"), ("k", "")], []⟩ (by decide)

/-- C10 counterexample: an earlier malformed line (`1. nope`) already
consumes index 1, so neither of the two later parseable lines with
index 1 produces a task — the parser emits nothing for that index
instead of the first parseable line's task. -/
theorem C10_counterexample :
    Planner.parseTasks "1. nope\n1. a(x=\"y\")\n1. b(x=\"z\")" = [] ∧
    Planner.parseTasks "1. a(x=\"y\")" = [⟨1, "a", [("x", "y")], []⟩] ∧
    Planner.parseTasks "1. b(x=\"z\")" = [⟨1, "b", [("x", "z")], []⟩] ∧
    FlatParser.parseTasks ["a", "b"] "1. nope\n1. a(x=\"y\")\n1. b(x=\"z\")" = [] := by
  refine ⟨by decide, by decide, by decide, by decide⟩

/-- C10 (amended): the first line matching the `^\d+\.` prefix with a
given index claims that index — if it parses completely its task is
emitted, and every later line with the same index is ignored (no task of
the output carries an index from the seen set, and output indices are
pairwise distinct). -/
theorem C10_first_line_wins :
    (∀ (lines : List (List Char)) (seen : List Nat) (t : Task),
      t ∈ Planner.parseGo lines seen → t.idx ∉ seen) ∧
    (∀ content : String, ((Planner.parseTasks content).map Task.idx).Nodup) ∧
    (∀ (l : List Char) (ls : List (List Char)) (seen : List Nat) (idx : Nat)
       (p1 sline : List Char) (t : Task),
      Planner.parseStage1 l = some (idx, p1, sline) → idx ∉ seen →
      Planner.parseRest idx p1 sline = some t →
      Planner.parseGo (l :: ls) seen = t :: Planner.parseGo ls (idx :: seen)) :=
  ⟨Planner.parseGo_seen, fun _ => Planner.parseGo_nodup _ [],
    fun _ _ _ _ _ _ _ h1 h2 h3 => Planner.parseGo_first_wins h1 h2 h3⟩

/-- Witness for C10 (amended) on a concrete duplicated-index buffer. -/
theorem C10_first_line_wins_witness :
    Planner.parseGo ["1. a(x=\"y\")".data, "1. b(x=\"z\")".data] [] =
      ⟨1, "a", [("x", "y")], []⟩ :: Planner.parseGo ["1. b(x=\"z\")".data] [1] :=
  C10_first_line_wins.2.2 ("1. a(x=\"y\")".data) ["1. b(x=\"z\")".data] [] 1
    (" a(x=\"y\")".data) ("1. a(x=\"y\")".data) ⟨1, "a", [("x", "y")], []⟩
    (by decide) (by decide) (by decide)

end LC
